import Mathlib

/-!
A verification development for a small distributed file system
(coordinator "NameNode", block server "DataNode", client transfer engine).

The definitions below are a shallow embedding of the Python source:

* `namenode.py`  — path handling (`normalize_path`, `path_to_key`,
  `key_to_path`, `get_parent_path`), the directory/file stores (the external
  ordered hash store is modelled as an association list), the LRU metadata
  cache, placement (`get_optimal_datanodes`), metadata storage and retrieval
  (`store_file_metadata`, `get_file_metadata`), and recursive directory
  deletion (`delete_directory`).
* `client.py`    — the whole-file upload driver (`write_file` /
  `process_single_block_streaming`), with the outcome of each network
  attempt abstracted as a boolean oracle (the thread pool only aggregates
  per-block outcomes, so the aggregation is modelled directly).
* `datanode.py`  — `atomic_write_block` over an explicit file-system map,
  with an explicit error model for the possible failure points.

Wall-clock timestamp fields (`timestamp`, `creation_time`, heartbeat times)
are elided: no verified property mentions them.  Python's stable `sorted`
is modelled by `List.insertionSort`, which is also stable; a stable sort by
a fixed key is unique, so the two agree as functions.  Python string
comparison (code-point lexicographic) is modelled by an executable
char-level comparison.
-/

/-! ## Association-list operations (the external hash store, and Python dicts) -/

def lookupKey {α : Type} (l : List (String × α)) (k : String) : Option α :=
  match l with
  | [] => none
  | (k', v) :: rest => if k' = k then some v else lookupKey rest k

def setKey {α : Type} (l : List (String × α)) (k : String) (v : α) : List (String × α) :=
  match l with
  | [] => [(k, v)]
  | (k', v') :: rest => if k' = k then (k, v) :: rest else (k', v') :: setKey rest k v

def eraseKey {α : Type} (l : List (String × α)) (k : String) : List (String × α) :=
  l.filter (fun kv => kv.1 != k)

/-! ## Character-level string utilities

`String` wraps a `List Char`; all path manipulation is done on the
underlying character list so that every definition evaluates inside the
kernel. -/

/-- Python `path.split('/')` (CPython `str.split` with an explicit
separator: `"".split('/') == [""]`). -/
def splitSlash : List Char → List (List Char)
  | [] => [[]]
  | c :: rest =>
    if c = '/' then [] :: splitSlash rest
    else
      match splitSlash rest with
      | [] => [[c]]
      | p :: ps => (c :: p) :: ps

/-- Python `'/'.join(components)` on character-list components. -/
def joinComps : List (List Char) → List Char
  | [] => []
  | [c] => c
  | c :: rest => c ++ '/' :: joinComps rest

/-- Python `'/' + '/'.join(components) if components else '/'`
(the tail of `normalize_path`, namenode.py:77). -/
def renderComps (comps : List (List Char)) : List Char :=
  '/' :: joinComps comps

/-- The component loop of `normalize_path` (namenode.py:67-75): drop empty
and `.` components, let `..` pop the accumulated stack. -/
def processComps (acc : List (List Char)) : List (List Char) → List (List Char)
  | [] => acc
  | c :: rest =>
    if c = [] ∨ c = ['.'] then processComps acc rest
    else if c = ['.', '.'] then processComps acc.dropLast rest
    else processComps (acc ++ [c]) rest

def normalizeChars (l : List Char) : List Char :=
  let l' := if l.head? = some '/' then l else '/' :: l
  renderComps (processComps [] (splitSlash l'))

/-- Model of `NameNode.normalize_path` (namenode.py:62-78). -/
def normalizePath (s : String) : String :=
  ⟨normalizeChars s.data⟩

/-- A "good" path component: what the normalizer can ever emit. -/
def goodCompB (c : List Char) : Bool :=
  decide (c ≠ [] ∧ c ≠ ['.'] ∧ c ≠ ['.', '.'] ∧ '/' ∉ c)

/-- Python `os.path.join(a, b)` for POSIX paths, two arguments
(used at namenode.py:247, 252, 269, 430, 435 and client.py:313). -/
def pyJoin (a b : String) : String :=
  if b.data.head? = some '/' then b
  else if a.data = [] ∨ a.data.getLast? = some '/' then ⟨a.data ++ b.data⟩
  else ⟨a.data ++ '/' :: b.data⟩

/-- Python `os.path.dirname` for POSIX paths: everything up to the last `/`,
with trailing slashes stripped unless the head is all slashes. -/
def dirnameChars (l : List Char) : List Char :=
  if '/' ∈ l then
    let head := (l.reverse.dropWhile (fun c => c ≠ '/')).reverse
    if head.all (fun c => c = '/') then head
    else (head.reverse.dropWhile (fun c => c = '/')).reverse
  else []

/-- Model of `NameNode.get_parent_path` (namenode.py:80-84): `None` for the root,
otherwise `os.path.dirname(path) or '/'`. -/
def getParentPath (p : String) : Option String :=
  if p = "/" then none
  else
    let d := dirnameChars p.data
    some (if d = [] then "/" else ⟨d⟩)

/-- Python `os.path.basename` for POSIX paths: everything after the last `/`. -/
def basenameStr (p : String) : String :=
  ⟨(p.data.reverse.takeWhile (fun c => c ≠ '/')).reverse⟩

/-- Python `path.replace('/', '__')` on characters (namenode.py:89). -/
def p2kChars : List Char → List Char
  | [] => []
  | c :: rest => if c = '/' then '_' :: '_' :: p2kChars rest else c :: p2kChars rest

/-- Python `key.replace('__', '/')` on characters (namenode.py:93): CPython
`str.replace` scans left to right replacing non-overlapping occurrences. -/
def k2pChars : List Char → List Char
  | [] => []
  | [c] => [c]
  | a :: b :: rest =>
    if a = '_' ∧ b = '_' then '/' :: k2pChars rest
    else a :: k2pChars (b :: rest)

/-- Model of `NameNode.path_to_key` (namenode.py:86-89). -/
def pathToKey (p : String) : String :=
  ⟨p2kChars p.data⟩

/-- Model of `NameNode.key_to_path` (namenode.py:91-93). -/
def keyToPath (k : String) : String :=
  ⟨k2pChars k.data⟩

/-- No `__` substring (the spec's acknowledged ambiguity set). -/
def noDunder : List Char → Bool
  | [] => true
  | [_] => true
  | a :: b :: rest => if a = '_' ∧ b = '_' then false else noDunder (b :: rest)

/-- No `_/` substring: an underscore directly before a path separator also
makes the `path_to_key` encoding ambiguous. -/
def noUnderSlash : List Char → Bool
  | [] => true
  | [_] => true
  | a :: b :: rest => if a = '_' ∧ b = '/' then false else noUnderSlash (b :: rest)

/-- Python string `≤` on character lists: code-point lexicographic. -/
def strLeChars : List Char → List Char → Bool
  | [], _ => true
  | _ :: _, [] => false
  | a :: as, b :: bs =>
    if a.toNat < b.toNat then true
    else if b.toNat < a.toNat then false
    else strLeChars as bs

/-- Python string `≤` (used by `sorted` over directory paths). -/
def strLe (a b : String) : Bool :=
  strLeChars a.data b.data

/-- Key `K` lies strictly under directory `D`: the string `D ++ "/"` is a
prefix of `K` (Python key prefixes over the canonical-path keys). -/
def underDir (d k : String) : Bool :=
  (d ++ "/").data.isPrefixOf k.data

/-! ## Coordinator data model (namenode.py) -/

/-- One entry of a file's `blocks` list (namenode.py:287-292). -/
structure BlockRef where
  block_id : String
  size : Nat
  locations : List String
deriving DecidableEq

/-- The persisted file metadata record (namenode.py:298-305). -/
structure FileMetadata where
  filename : String
  full_path : String
  storage_name : String
  blocks : List BlockRef
  total_size : Nat
deriving DecidableEq

/-- One entry of the `directories` hash (namenode.py:51-56): `children`
maps subdirectory names, `files` maps file names to their sizes. -/
structure DirEntry where
  children : List String
  files : List (String × Nat)
deriving DecidableEq

/-- The coordinator's mutable state: live-node list (insertion-ordered, as
Python dict keys), load counters (a `defaultdict(int)`), the two durable
hash namespaces, and the LRU metadata cache (head = least recently used,
matching `OrderedDict` insertion order). -/
structure NameNode where
  datanodes : List String
  datanode_load : String → Nat
  directories : List (String × DirEntry)
  files : List (String × FileMetadata)
  metadata_cache : List (String × FileMetadata)
  max_cache_size : Nat

/-- The state right after `__init__` + `init_directory_structure`. -/
def initNameNode : NameNode :=
  { datanodes := []
    datanode_load := fun _ => 0
    directories := [("/", ⟨[], []⟩)]
    files := []
    metadata_cache := []
    max_cache_size := 1000 }

/-- Model of `register_datanode` (namenode.py:667-671): dict assignment keeps the
position of an existing key and appends a fresh one. -/
def registerDatanode (σ : NameNode) (addr : String) : NameNode :=
  if addr ∈ σ.datanodes then σ
  else { σ with datanodes := σ.datanodes ++ [addr] }

/-- The liveness monitor's removal of a dead node (namenode.py:744-748). -/
def removeDatanode (σ : NameNode) (addr : String) : NameNode :=
  { σ with datanodes := σ.datanodes.filter (fun a => a != addr) }

/-- Model of `get_optimal_datanodes` (namenode.py:507-522): stable-sort the live
list by current load, take the first `num_replicas`, and increment exactly
the chosen counters.  `sorted` is stable, so ties keep live-list order. -/
def getOptimalDatanodes (σ : NameNode) (numReplicas : Nat) : List String × NameNode :=
  if σ.datanodes = [] then ([], σ)
  else
    let sorted := List.insertionSort
      (fun a b => σ.datanode_load a ≤ σ.datanode_load b) σ.datanodes
    let sel := sorted.take numReplicas
    (sel,
     { σ with datanode_load :=
        fun n => if n ∈ sel then σ.datanode_load n + 1 else σ.datanode_load n })

/-- Model of `get_cached_metadata` (namenode.py:524-531): a hit pops the entry and
re-inserts it at the most-recently-used end. -/
def getCachedMetadata (σ : NameNode) (k : String) : Option FileMetadata × NameNode :=
  match lookupKey σ.metadata_cache k with
  | some v => (some v, { σ with metadata_cache := eraseKey σ.metadata_cache k ++ [(k, v)] })
  | none => (none, σ)

/-- Model of `cache_metadata` (namenode.py:533-541): re-inserting an existing key
moves it to the MRU end; a fresh key at capacity first evicts the LRU
entry (`popitem(last=False)` = the head). -/
def cacheMetadata (σ : NameNode) (k : String) (v : FileMetadata) : NameNode :=
  if (lookupKey σ.metadata_cache k).isSome then
    { σ with metadata_cache := eraseKey σ.metadata_cache k ++ [(k, v)] }
  else if σ.max_cache_size ≤ σ.metadata_cache.length then
    { σ with metadata_cache := σ.metadata_cache.tail ++ [(k, v)] }
  else
    { σ with metadata_cache := σ.metadata_cache ++ [(k, v)] }

/-- The `metadata_cache.pop(file_key, None)` in the delete paths
(namenode.py:399-400 and 481-482). -/
def cacheInvalidate (σ : NameNode) (k : String) : NameNode :=
  { σ with metadata_cache := eraseKey σ.metadata_cache k }

/-- Model of `path_exists` (namenode.py:117-128): a path exists if it is a
directory key or its `path_to_key` image is a file key. -/
def pathExists (σ : NameNode) (path : String) : Bool :=
  let p := normalizePath path
  (lookupKey σ.directories p).isSome || (lookupKey σ.files (pathToKey p)).isSome

/-- The name-to-path computation inside `get_file_full_path`
(namenode.py:243-254): names with `/` are canonicalized (directly if
absolute, joined to `cwd` first if relative); names without `/` are joined
to `cwd` verbatim, with no canonicalization of the result. -/
def resolveName (filename currentDir : String) : String :=
  let cd := normalizePath currentDir
  if '/' ∈ filename.data then
    if filename.data.head? = some '/' then normalizePath filename
    else normalizePath (pyJoin cd filename)
  else pyJoin cd filename

/-- Model of `get_file_full_path` (namenode.py:238-260). -/
def getFileFullPath (σ : NameNode) (filename currentDir : String) : Option String :=
  let fp := resolveName filename currentDir
  if pathExists σ fp then some fp else none

/-- The full-path computation of `store_file_metadata` (namenode.py:265-270). -/
def storeFullPath (filename currentDir : String) : String :=
  if '/' ∈ filename.data then normalizePath filename
  else pyJoin (normalizePath currentDir) filename

/-- Model of `register_file_in_directory` (namenode.py:203-236): normalize, find (or
freshly create) the parent entry, and record the file name and size. -/
def registerFileInDirectory (σ : NameNode) (filePath : String) (md : FileMetadata) : NameNode :=
  let p := normalizePath filePath
  let parent := match getParentPath p with
    | none => "/"
    | some pp => pp
  let name := basenameStr p
  let pe := (lookupKey σ.directories parent).getD ⟨[], []⟩
  { σ with directories :=
      setKey σ.directories parent { pe with files := setKey pe.files name md.total_size } }

/-- The per-block construction loop of `store_file_metadata`
(namenode.py:282-293), threading the load-counter state through the
placement calls.  Non-final blocks get `block_size`; the final one gets
`block_size // 2`. -/
def buildBlocksFrom (n bs : Nat) : NameNode → List Nat → List BlockRef × NameNode
  | σ, [] => ([], σ)
  | σ, i :: rest =>
    let r := getOptimalDatanodes σ 3
    let r2 := buildBlocksFrom n bs r.2 rest
    ({ block_id := "block_" ++ toString i
       size := if i < n - 1 then bs else bs / 2
       locations := r.1 } :: r2.1, r2.2)

def buildBlocks (σ : NameNode) (n bs : Nat) : List BlockRef × NameNode :=
  buildBlocksFrom n bs σ (List.range n)

/-- Model of `store_file_metadata` (namenode.py:262-317).  When no explicit block
metadata is given the coordinator needs a non-empty live set, builds each
block itself and sums the sizes; the record is persisted under the
path-derived key, cached, and registered in the parent directory. -/
def storeFileMetadata (σ : NameNode) (filename : String) (blockCount blockSize : Nat)
    (blocksMetadata : Option (List BlockRef)) (currentDir : String) : Bool × NameNode :=
  let fullPath := storeFullPath filename currentDir
  let actualFilename := if '/' ∈ filename.data then basenameStr (normalizePath filename)
    else filename
  let fileKey := pathToKey fullPath
  if blocksMetadata.isNone && σ.datanodes.isEmpty then (false, σ)
  else
    let br : List BlockRef × NameNode :=
      match blocksMetadata with
      | none => buildBlocks σ blockCount blockSize
      | some bs => (bs, σ)
    let total := (br.1.map BlockRef.size).sum
    let md : FileMetadata :=
      { filename := actualFilename, full_path := fullPath, storage_name := fileKey
        blocks := br.1, total_size := total }
    let σ₂ := { br.2 with files := setKey br.2.files fileKey md }
    let σ₃ := cacheMetadata σ₂ fileKey md
    let σ₄ := registerFileInDirectory σ₃ fullPath md
    (true, σ₄)

/-- The per-block live filter of `get_file_metadata` (namenode.py:335-343
and 354-362), as it affects the *returned* value: every block's locations
are intersected with the live set, and one empty intersection fails the
whole request. -/
def filterBlocks (live : List String) : List BlockRef → Option (List BlockRef)
  | [] => some []
  | b :: rest =>
    let locs := b.locations.filter (fun l => decide (l ∈ live))
    if locs = [] then none
    else (filterBlocks live rest).map (fun bs => { b with locations := locs } :: bs)

/-- The same loop as it affects the *cached object*: the Python loop
mutates each block's `locations` in place and returns `None` as soon as a
block's filtered list is empty, leaving the remaining blocks untouched. -/
def mutateBlocks (live : List String) : List BlockRef → List BlockRef
  | [] => []
  | b :: rest =>
    let locs := b.locations.filter (fun l => decide (l ∈ live))
    if locs = [] then { b with locations := locs } :: rest
    else { b with locations := locs } :: mutateBlocks live rest

/-- Model of `get_file_metadata` (namenode.py:319-370): resolve the name, try the
cache (a hit is promoted to MRU and its blocks are destructively
filtered), fall back to the durable store (a successful read caches the
already-filtered record). -/
def getFileMetadata (σ : NameNode) (filename currentDir : String) :
    Option FileMetadata × NameNode :=
  match getFileFullPath σ filename currentDir with
  | none => (none, σ)
  | some fp =>
    let k := pathToKey fp
    match lookupKey σ.metadata_cache k with
    | some rec =>
      let σ₁ := { σ with metadata_cache := eraseKey σ.metadata_cache k ++ [(k, rec)] }
      let rec' := { rec with blocks := mutateBlocks σ.datanodes rec.blocks }
      let σ₂ := { σ₁ with metadata_cache := setKey σ₁.metadata_cache k rec' }
      match filterBlocks σ.datanodes rec.blocks with
      | some bs => (some { rec with blocks := bs }, σ₂)
      | none => (none, σ₂)
    | none =>
      match lookupKey σ.files k with
      | none => (none, σ)
      | some rec =>
        match filterBlocks σ.datanodes rec.blocks with
        | some bs =>
          let md := { rec with blocks := bs }
          (some md, cacheMetadata σ k md)
        | none => (none, σ)

/-- The metadata record a `get_metadata` request consults: the cache entry
when present, otherwise the durable record. -/
def recordConsulted (σ : NameNode) (filename currentDir : String) : Option FileMetadata :=
  match getFileFullPath σ filename currentDir with
  | none => none
  | some fp =>
    match lookupKey σ.metadata_cache (pathToKey fp) with
    | some rec => some rec
    | none => lookupKey σ.files (pathToKey fp)

/-- Model of `create_directory` (namenode.py:130-168). -/
def createDirectory (σ : NameNode) (path : String) : Bool × NameNode :=
  let p := normalizePath path
  if pathExists σ p then (false, σ)
  else
    match getParentPath p with
    | none => (true, { σ with directories := setKey σ.directories p ⟨[], []⟩ })
    | some pp =>
      if !pathExists σ pp then (false, σ)
      else
        let σ₁ := { σ with directories := setKey σ.directories p ⟨[], []⟩ }
        match lookupKey σ₁.directories pp with
        | some pe =>
          let nm := basenameStr p
          let cs := if nm ∈ pe.children then pe.children else pe.children ++ [nm]
          (true, { σ₁ with directories := setKey σ₁.directories pp { pe with children := cs } })
        | none => (true, σ₁)

/-- The `for dirname in dir_data['children']` loop of `collect_items`
(namenode.py:434-438): `deeper` is the gather at one less nesting depth. -/
def collectChildren (deeper : String → Option (List String × List String)) (p : String)
    (accFiles : List String) : List String → Option (List String × List String)
  | [] => some (accFiles, [])
  | nm :: rest =>
    let sub := normalizePath (pyJoin p nm)
    match deeper sub with
    | none => none
    | some r =>
      match collectChildren deeper p (accFiles ++ r.1) rest with
      | none => none
      | some r2 => some (r2.1, sub :: (r.2 ++ r2.2))

/-- Model of `get_directory_contents_recursive` / `collect_items`
(namenode.py:418-441): gather contained file paths and subdirectory paths,
parent before children, in `children` map order.  Python recurses without
bound (a cyclic `children` structure dies with `RecursionError`, surfacing
as an operation error); the embedding uses explicit fuel, one unit per
nesting level, and returns `none` when it runs out. -/
def collectItems (σ : NameNode) : Nat → String → Option (List String × List String)
  | 0, _ => none
  | Nat.succ fuel, p =>
    match lookupKey σ.directories p with
    | none => some ([], [])
    | some e =>
      collectChildren (fun q => collectItems σ fuel q) p
        (e.files.map (fun f => normalizePath (pyJoin p f.1))) e.children

/-- A deletion-plan entry: `(block_id, locations, storage_name)`
(namenode.py:471-476). -/
abbrev BlockInfo : Type := String × List String × String

/-- The `delete_directory` result payload (namenode.py:497-501). -/
structure DeleteDirResult where
  blocksInfo : List BlockInfo
  deletedFiles : Nat
  deletedDirectories : Nat
deriving DecidableEq

/-- The per-file loop of `delete_directory` (namenode.py:465-482): read
the metadata still in the store, extend the plan, then remove the file
key and its cache entry. -/
def filesFold : NameNode → List String → List BlockInfo × NameNode
  | σ, [] => ([], σ)
  | σ, fp :: rest =>
    let k := pathToKey fp
    let add := match lookupKey σ.files k with
      | some md => md.blocks.map (fun b => (b.block_id, b.locations, md.storage_name))
      | none => []
    let σ₂ := { σ with files := eraseKey σ.files k
                       metadata_cache := eraseKey σ.metadata_cache k }
    let r := filesFold σ₂ rest
    (add ++ r.1, r.2)

/-- The order in which `delete_directory` removes directory keys
(namenode.py:484-486): `reversed(sorted(all_dirs))`. -/
def deletionOrder (dps : List String) (p : String) : List String :=
  (List.insertionSort (fun a b => strLe a b = true) (dps ++ [p])).reverse

/-- The subdirectory-removal loop of `delete_directory` (namenode.py:485-486). -/
def dirsFold : NameNode → List String → NameNode
  | σ, [] => σ
  | σ, d :: rest => dirsFold { σ with directories := eraseKey σ.directories d } rest

/-- The deletion plan read against a fixed store (what the claim calls the
aggregated plan over the gathered files). -/
def planSpec (σ : NameNode) (fps : List String) : List BlockInfo :=
  match fps with
  | [] => []
  | fp :: rest =>
    (match lookupKey σ.files (pathToKey fp) with
     | some md => md.blocks.map (fun b => (b.block_id, b.locations, md.storage_name))
     | none => []) ++ planSpec σ rest

/-- Model of `delete_directory` (namenode.py:447-505): reject the root, gather the
subtree, delete file metadata (and cache entries), delete directory keys
deepest-first, unlink from the parent, and return the plan and counts. -/
def deleteDirectory (σ : NameNode) (path : String) :
    Option DeleteDirResult × NameNode :=
  let p := normalizePath path
  if p = "/" then (none, σ)
  else if !pathExists σ p then (none, σ)
  else
    match collectItems σ (σ.directories.length + 1) p with
    | none => (none, σ)
    | some c =>
      let r := filesFold σ c.1
      let σ₂ := dirsFold r.2 (deletionOrder c.2 p)
      let σ₃ := match getParentPath p with
        | none => σ₂
        | some pp =>
          match lookupKey σ₂.directories pp with
          | some pe =>
            let pe' := { pe with children := pe.children.filter (fun c => c != basenameStr p) }
            { σ₂ with directories := setKey σ₂.directories pp pe' }
          | none => σ₂
      (some ⟨r.1, c.1.length, c.2.length + 1⟩, σ₃)

/-! ## Client transfer engine (client.py) -/

/-- The client's fixed block size, `64 * 1024` (client.py:15). -/
def clientBlockSize : Nat := 64 * 1024

/-- Model of `process_single_block_streaming` (client.py:365-415): up to 3 attempts;
the outcome of each attempt (read + placement + network send) is an
oracle.  The call returns success iff some attempt succeeds. -/
def processSingleBlock (attemptOk : Nat → Bool) : Bool :=
  (List.range 3).any attemptOk

/-- Model of `write_file` (client.py:293-363), as the aggregation of per-block task
outcomes: the first component records whether `store_metadata` is called,
the second is the return value.  `attemptOk i a` is the outcome of attempt
`a` of block `i`; `storeOk` is the coordinator's reply to
`store_metadata`.  The worker pool only partitions blocks into
completed/failed, so completion order is irrelevant to the result. -/
def writeFile (fileExists : Bool) (fileSize : Nat) (attemptOk : Nat → Nat → Bool)
    (storeOk : Bool) : Bool × Bool :=
  if !fileExists then (false, false)
  else
    let numBlocks := (fileSize + clientBlockSize - 1) / clientBlockSize
    let failed := (List.range numBlocks).filter (fun i => !processSingleBlock (attemptOk i))
    if failed.isEmpty then (true, storeOk)
    else (false, false)

/-! ## Block server (datanode.py) -/

/-- A block server's local file system: path → byte list. -/
abbrev FileSys : Type := List (String × List Nat)

/-- Where `atomic_write_block` can fail: while writing the temp file (some
prefix of the data may be on disk), at `fsync`, or at `os.replace` (which
is atomic: on failure the target is untouched). -/
inductive WriteOutcome where
  | ok : WriteOutcome
  | failDuringWrite : List Nat → WriteOutcome
  | failFsync : WriteOutcome
  | failReplace : WriteOutcome
deriving DecidableEq

def tmpName (p : String) : String := p ++ ".tmp"

/-- Model of `atomic_write_block` (datanode.py:209-227): write `<path>.tmp`, fsync,
`os.replace` into `<path>`; on any error remove the temp file and
re-raise.  Returns the observable intermediate states, the final state,
and whether the call succeeded. -/
def atomicWriteBlock (fs : FileSys) (path : String) (data : List Nat) (o : WriteOutcome) :
    List FileSys × FileSys × Bool :=
  let tmp := tmpName path
  match o with
  | .ok =>
    let s1 := setKey fs tmp data
    let s2 := setKey (eraseKey s1 tmp) path data
    ([s1, s2], s2, true)
  | .failDuringWrite w =>
    let s1 := setKey fs tmp w
    ([s1, eraseKey s1 tmp], eraseKey s1 tmp, false)
  | .failFsync =>
    let s1 := setKey fs tmp data
    ([s1, eraseKey s1 tmp], eraseKey s1 tmp, false)
  | .failReplace =>
    let s1 := setKey fs tmp data
    ([s1, eraseKey s1 tmp], eraseKey s1 tmp, false)


/-! ## Concrete scenario states

States reachable by the modelled operations, used by counterexamples and
witnesses. -/

/-- Two nodes registered, one single-block file stored (its cached and
durable locations are `["a:1", "b:1"]`). -/
def scnStored : NameNode :=
  (storeFileMetadata (registerDatanode (registerDatanode initNameNode "a:1") "b:1")
    "a.txt" 1 65536 none "/").2

/-- State `scnStored` after node `a:1` dies, a lookup filters the cached entry,
and `a:1` then re-registers: both replicas are live again, but the cache
entry has permanently lost `a:1`. -/
def scnRevived : NameNode :=
  registerDatanode (getFileMetadata (removeDatanode scnStored "a:1") "a.txt" "/").2 "a:1"

/-- After `mkdir /x`, a store of `x/y/f.txt`: `register_file_in_directory`
creates the orphan directory key `/x/y` without linking it into `/x`. -/
def scnOrphan : NameNode :=
  (storeFileMetadata (registerDatanode (createDirectory initNameNode "/x").2 "n1:8001")
    "x/y/f.txt" 1 65536 none "/").2

/-- A link-consistent tree: `/x` with subdirectory `/x/y` and a two-block
file `/x/a.txt`. -/
def scnTree : NameNode :=
  (storeFileMetadata
    (registerDatanode ((createDirectory (createDirectory initNameNode "/x").2 "/x/y")).2
      "n1:8001")
    "/x/a.txt" 2 65536 none "/").2

/-- A one-block metadata record on nodes `A` and `B`, for file `a.txt`. -/
def mdOnAB : FileMetadata :=
  { filename := "a.txt", full_path := "/a.txt", storage_name := "__a.txt"
    blocks := [{ block_id := "block_0", size := 7, locations := ["A", "B"] }]
    total_size := 7 }

/-- A one-block metadata record on nodes `A` and `B`, for file `b.txt`. -/
def mdOnAB2 : FileMetadata :=
  { filename := "b.txt", full_path := "/b.txt", storage_name := "__b.txt"
    blocks := [{ block_id := "block_0", size := 7, locations := ["A", "B"] }]
    total_size := 7 }

/-- A coordinator state where node `A` is dead, `a.txt` is cached and
`b.txt` is only in the durable store. -/
def scnStale : NameNode :=
  { initNameNode with
      datanodes := ["B"]
      directories := [("/", ⟨[], [("a.txt", 7), ("b.txt", 7)]⟩)]
      files := [("__a.txt", mdOnAB), ("__b.txt", mdOnAB2)]
      metadata_cache := [("__a.txt", mdOnAB)] }

/-! # Theorems

First a small library about the association-list operations, then the
settled claims, each as one theorem (with counterexamples and witnesses
where appropriate). -/

theorem eraseKey_cons {α : Type} (k1 : String) (v1 : α) (rest : List (String × α)) (k : String) :
    eraseKey ((k1, v1) :: rest) k =
      if k1 = k then eraseKey rest k else (k1, v1) :: eraseKey rest k := by
  simp only [eraseKey, List.filter_cons]
  by_cases h : k1 = k
  · subst h
    simp
  · simp [bne_iff_ne, h]

theorem lookupKey_setKey_self {α : Type} (l : List (String × α)) (k : String) (v : α) :
    lookupKey (setKey l k v) k = some v := by
  induction l with
  | nil => simp [setKey, lookupKey]
  | cons kv rest ih =>
    obtain ⟨k1, v1⟩ := kv
    by_cases h : k1 = k
    · simp [setKey, h, lookupKey]
    · simp [setKey, h, lookupKey, ih]

theorem lookupKey_setKey_of_ne {α : Type} (l : List (String × α)) {k k' : String} (v : α)
    (h : k' ≠ k) : lookupKey (setKey l k v) k' = lookupKey l k' := by
  induction l with
  | nil => simp [setKey, lookupKey, Ne.symm h]
  | cons kv rest ih =>
    obtain ⟨k1, v1⟩ := kv
    by_cases h1 : k1 = k
    · subst h1
      simp [setKey, lookupKey, Ne.symm h]
    · simp [setKey, h1, lookupKey, ih]

theorem lookupKey_eraseKey_self {α : Type} (l : List (String × α)) (k : String) :
    lookupKey (eraseKey l k) k = none := by
  induction l with
  | nil => simp [eraseKey, lookupKey]
  | cons kv rest ih =>
    obtain ⟨k1, v1⟩ := kv
    rw [eraseKey_cons]
    by_cases h : k1 = k
    · simp [h, ih]
    · simp [lookupKey, h, ih]

theorem lookupKey_eraseKey_of_ne {α : Type} (l : List (String × α)) {k k' : String}
    (h : k' ≠ k) : lookupKey (eraseKey l k) k' = lookupKey l k' := by
  induction l with
  | nil => simp [eraseKey, lookupKey]
  | cons kv rest ih =>
    obtain ⟨k1, v1⟩ := kv
    rw [eraseKey_cons]
    by_cases h1 : k1 = k
    · subst h1
      simp [lookupKey, Ne.symm h, ih]
    · simp [lookupKey, h1, ih]

theorem mem_eraseKey {α : Type} {l : List (String × α)} {k : String} {kv : String × α} :
    kv ∈ eraseKey l k ↔ kv ∈ l ∧ kv.1 ≠ k := by
  simp [eraseKey, List.mem_filter, bne_iff_ne]

theorem mem_setKey {α : Type} {l : List (String × α)} {k : String} {v : α} {kv : String × α}
    (h : kv ∈ setKey l k v) : kv = (k, v) ∨ kv ∈ l := by
  induction l with
  | nil => simpa [setKey] using h
  | cons kv1 rest ih =>
    obtain ⟨k1, v1⟩ := kv1
    by_cases h1 : k1 = k
    · simp only [setKey, if_pos h1, List.mem_cons] at h
      rcases h with h | h
      · exact Or.inl h
      · exact Or.inr (List.mem_cons_of_mem _ h)
    · simp only [setKey, if_neg h1, List.mem_cons] at h
      rcases h with h | h
      · exact Or.inr (by simp [h])
      · rcases ih h with h' | h'
        · exact Or.inl h'
        · exact Or.inr (List.mem_cons_of_mem _ h')

theorem length_eraseKey_le {α : Type} (l : List (String × α)) (k : String) :
    (eraseKey l k).length ≤ l.length :=
  List.length_filter_le _ _

theorem length_eraseKey_of_found {α : Type} {l : List (String × α)} {k : String} {v : α}
    (h : lookupKey l k = some v) : (eraseKey l k).length + 1 ≤ l.length := by
  induction l with
  | nil => simp [lookupKey] at h
  | cons kv rest ih =>
    obtain ⟨k1, v1⟩ := kv
    rw [eraseKey_cons]
    by_cases h1 : k1 = k
    · have := length_eraseKey_le rest k
      simp only [if_pos h1, List.length_cons]
      omega
    · simp only [lookupKey, if_neg h1] at h
      have := ih h
      simp only [if_neg h1, List.length_cons]
      omega

theorem lookupKey_append {α : Type} (l₁ l₂ : List (String × α)) (k : String) :
    lookupKey (l₁ ++ l₂) k =
      match lookupKey l₁ k with
      | some v => some v
      | none => lookupKey l₂ k := by
  induction l₁ with
  | nil => simp [lookupKey]
  | cons kv rest ih =>
    obtain ⟨k1, v1⟩ := kv
    by_cases h : k1 = k
    · simp [lookupKey, h]
    · simp [lookupKey, h, ih]

theorem lookupKey_eq_none_of_forall {α : Type} {l : List (String × α)} {k : String}
    (h : ∀ kv ∈ l, kv.1 ≠ k) : lookupKey l k = none := by
  induction l with
  | nil => rfl
  | cons kv rest ih =>
    obtain ⟨k1, v1⟩ := kv
    have h1 : k1 ≠ k := h (k1, v1) (List.mem_cons_self _ _)
    simp only [lookupKey, if_neg h1]
    exact ih (fun kv hkv => h kv (List.mem_cons_of_mem _ hkv))

theorem lookupKey_isSome_of_mem {α : Type} {l : List (String × α)} {kv : String × α}
    (h : kv ∈ l) : (lookupKey l kv.1).isSome := by
  induction l with
  | nil => simp at h
  | cons kv1 rest ih =>
    obtain ⟨k1, v1⟩ := kv1
    rcases List.mem_cons.mp h with h' | h'
    · subst h'
      simp [lookupKey]
    · by_cases h1 : k1 = kv.1
      · simp [lookupKey, h1]
      · simp [lookupKey, h1, ih h']

/-! ## Claim C7: the path/key round-trip -/

theorem noDunder_cons {c : Char} {rest : List Char} (h : noDunder (c :: rest) = true) :
    noDunder rest = true ∧ ¬(c = '_' ∧ rest.head? = some '_') := by
  cases rest with
  | nil => simp [noDunder]
  | cons b r =>
    by_cases hcb : c = '_' ∧ b = '_'
    · simp [noDunder, hcb] at h
    · simp only [noDunder, if_neg hcb] at h
      refine ⟨h, ?_⟩
      simpa using hcb

theorem noUnderSlash_cons {c : Char} {rest : List Char} (h : noUnderSlash (c :: rest) = true) :
    noUnderSlash rest = true ∧ ¬(c = '_' ∧ rest.head? = some '/') := by
  cases rest with
  | nil => simp [noUnderSlash]
  | cons b r =>
    by_cases hcb : c = '_' ∧ b = '/'
    · simp [noUnderSlash, hcb] at h
    · simp only [noUnderSlash, if_neg hcb] at h
      refine ⟨h, ?_⟩
      simpa using hcb

theorem k2pChars_cons {c : Char} {X : List Char} (h : ¬(c = '_' ∧ X.head? = some '_')) :
    k2pChars (c :: X) = c :: k2pChars X := by
  cases X with
  | nil => rfl
  | cons b r =>
    have h' : ¬(c = '_' ∧ b = '_') := by simpa using h
    simp [k2pChars, h']

theorem p2kChars_head {X : List Char} :
    (p2kChars X).head? = some '_' ↔ (X.head? = some '/' ∨ X.head? = some '_') := by
  cases X with
  | nil => simp [p2kChars]
  | cons d r =>
    by_cases hd : d = '/'
    · simp [p2kChars, hd]
    · simp [p2kChars, hd]

theorem k2p_p2k {l : List Char} (h1 : noDunder l = true) (h2 : noUnderSlash l = true) :
    k2pChars (p2kChars l) = l := by
  induction l with
  | nil => rfl
  | cons c rest ih =>
    obtain ⟨h1r, h1h⟩ := noDunder_cons h1
    obtain ⟨h2r, h2h⟩ := noUnderSlash_cons h2
    by_cases hc : c = '/'
    · subst hc
      have hp : p2kChars ('/' :: rest) = '_' :: '_' :: p2kChars rest := by
        simp [p2kChars]
      rw [hp]
      have h3 : k2pChars ('_' :: '_' :: p2kChars rest) = '/' :: k2pChars (p2kChars rest) := by
        cases hpk : p2kChars rest with
        | nil => simp [k2pChars]
        | cons x xs => simp [k2pChars]
      rw [h3, ih h1r h2r]
    · have hp : p2kChars (c :: rest) = c :: p2kChars rest := by
        simp [p2kChars, hc]
      rw [hp]
      have hguard : ¬(c = '_' ∧ (p2kChars rest).head? = some '_') := by
        rintro ⟨hcu, hhead⟩
        rcases p2kChars_head.mp hhead with hr | hr
        · exact h2h ⟨hcu, hr⟩
        · exact h1h ⟨hcu, hr⟩
      rw [k2pChars_cons hguard, ih h1r h2r]

/-- Claim C7 (amended): over canonical paths, the `path_to_key` encoding
round-trips through `key_to_path` and is injective on the set of paths
that contain neither a `__` substring nor a `_/` substring (a component
ending in `_` also makes the encoding ambiguous, so the claim's
`__`-free set is too large). -/
theorem claim7_roundtrip_amended (P Q : String)
    (hPc : normalizePath P = P) (hQc : normalizePath Q = Q)
    (hP1 : noDunder P.data = true) (hP2 : noUnderSlash P.data = true)
    (hQ1 : noDunder Q.data = true) (hQ2 : noUnderSlash Q.data = true) :
    keyToPath (pathToKey P) = P ∧ (pathToKey P = pathToKey Q → P = Q) := by
  have hrt : keyToPath (pathToKey P) = P := by
    show String.mk (k2pChars (p2kChars P.data)) = P
    rw [k2p_p2k hP1 hP2]
  refine ⟨hrt, fun hk => ?_⟩
  have hrtQ : keyToPath (pathToKey Q) = Q := by
    show String.mk (k2pChars (p2kChars Q.data)) = Q
    rw [k2p_p2k hQ1 hQ2]
  rw [← hrt, ← hrtQ, hk]

/-- Claim C7 counterexample: the canonical paths `/a_/b` and `/a/_b`
contain no `__` substring, are distinct, yet share a storage key; the
round-trip on `/a_/b` therefore fails.  The claimed `__`-free set is too
large: injectivity and totality of the round-trip fail on it. -/
theorem claim7_counterexample :
    pathToKey "/a_/b" = pathToKey "/a/_b" ∧ "/a_/b" ≠ "/a/_b" ∧
    noDunder "/a_/b".data = true ∧ noDunder "/a/_b".data = true ∧
    normalizePath "/a_/b" = "/a_/b" ∧ normalizePath "/a/_b" = "/a/_b" ∧
    keyToPath (pathToKey "/a_/b") ≠ "/a_/b" := by
  decide

/-- Claim C7 witness: the amended round-trip at a concrete safe path. -/
theorem claim7_witness : keyToPath (pathToKey "/data/file.txt") = "/data/file.txt" :=
  (claim7_roundtrip_amended "/data/file.txt" "/tmp"
    (by decide) (by decide) (by decide) (by decide) (by decide) (by decide)).1

/-! ## Claim C9: atomicity of block writes -/

theorem tmpName_ne (p : String) : tmpName p ≠ p := by
  intro h
  have hl : (p.data ++ (".tmp" : String).data).length = p.data.length := by
    rw [← String.data_append]
    exact congrArg (fun s => s.data.length) h
  have h4 : (".tmp" : String).data.length = 4 := rfl
  simp only [List.length_append, h4] at hl
  omega

/-- Claim C9: `atomic_write_block` either installs the complete new data
at the target path, or on any error leaves the previous content of the
target unchanged and removes the temp file; in every intermediate state
the target holds either the old content or the complete new data, never a
partial write. -/
theorem claim9_atomic_write (fs : FileSys) (path : String) (data : List Nat)
    (o : WriteOutcome) :
    lookupKey (atomicWriteBlock fs path data o).2.1 path =
      (if o = WriteOutcome.ok then some data else lookupKey fs path) ∧
    lookupKey (atomicWriteBlock fs path data o).2.1 (tmpName path) = none ∧
    ((atomicWriteBlock fs path data o).2.2 = true ↔ o = WriteOutcome.ok) ∧
    (∀ s ∈ (atomicWriteBlock fs path data o).1,
      lookupKey s path = lookupKey fs path ∨ lookupKey s path = some data) := by
  have hne : path ≠ tmpName path := Ne.symm (tmpName_ne path)
  cases o with
  | ok =>
    refine ⟨?_, ?_, by simp [atomicWriteBlock], ?_⟩
    · simp [atomicWriteBlock, lookupKey_setKey_self]
    · simp only [atomicWriteBlock]
      rw [lookupKey_setKey_of_ne _ _ (tmpName_ne path), lookupKey_eraseKey_self]
    · intro s hs
      simp only [atomicWriteBlock, List.mem_cons, List.not_mem_nil, or_false] at hs
      rcases hs with hs | hs
      · subst hs
        left
        exact lookupKey_setKey_of_ne _ _ hne
      · subst hs
        right
        exact lookupKey_setKey_self _ _ _
  | failDuringWrite w =>
    refine ⟨?_, ?_, by simp [atomicWriteBlock], ?_⟩
    · simp only [atomicWriteBlock]
      rw [lookupKey_eraseKey_of_ne _ hne, lookupKey_setKey_of_ne _ _ hne, if_neg nofun]
    · simp only [atomicWriteBlock]
      exact lookupKey_eraseKey_self _ _
    · intro s hs
      simp only [atomicWriteBlock, List.mem_cons, List.not_mem_nil, or_false] at hs
      rcases hs with hs | hs
      · subst hs
        left
        exact lookupKey_setKey_of_ne _ _ hne
      · subst hs
        left
        rw [lookupKey_eraseKey_of_ne _ hne, lookupKey_setKey_of_ne _ _ hne]
  | failFsync =>
    refine ⟨?_, ?_, by simp [atomicWriteBlock], ?_⟩
    · simp only [atomicWriteBlock]
      rw [lookupKey_eraseKey_of_ne _ hne, lookupKey_setKey_of_ne _ _ hne, if_neg nofun]
    · simp only [atomicWriteBlock]
      exact lookupKey_eraseKey_self _ _
    · intro s hs
      simp only [atomicWriteBlock, List.mem_cons, List.not_mem_nil, or_false] at hs
      rcases hs with hs | hs
      · subst hs
        left
        exact lookupKey_setKey_of_ne _ _ hne
      · subst hs
        left
        rw [lookupKey_eraseKey_of_ne _ hne, lookupKey_setKey_of_ne _ _ hne]
  | failReplace =>
    refine ⟨?_, ?_, by simp [atomicWriteBlock], ?_⟩
    · simp only [atomicWriteBlock]
      rw [lookupKey_eraseKey_of_ne _ hne, lookupKey_setKey_of_ne _ _ hne, if_neg nofun]
    · simp only [atomicWriteBlock]
      exact lookupKey_eraseKey_self _ _
    · intro s hs
      simp only [atomicWriteBlock, List.mem_cons, List.not_mem_nil, or_false] at hs
      rcases hs with hs | hs
      · subst hs
        left
        exact lookupKey_setKey_of_ne _ _ hne
      · subst hs
        left
        rw [lookupKey_eraseKey_of_ne _ hne, lookupKey_setKey_of_ne _ _ hne]

/-- Claim C9 witness: a failing fsync leaves the previously stored block
untouched and no temp file behind, at a concrete file system. -/
theorem claim9_witness :
    lookupKey (atomicWriteBlock [("b0", [7, 7])] "b0" [1, 2, 3]
        WriteOutcome.failFsync).2.1 "b0" = some [7, 7] ∧
    lookupKey (atomicWriteBlock [("b0", [7, 7])] "b0" [1, 2, 3]
        WriteOutcome.failFsync).2.1 (tmpName "b0") = none := by
  have h := claim9_atomic_write [("b0", [7, 7])] "b0" [1, 2, 3] WriteOutcome.failFsync
  refine ⟨?_, h.2.1⟩
  have h1 := h.1
  rw [if_neg (by decide)] at h1
  rw [h1]
  decide

/-! ## Claim C4: no metadata for partially-uploaded files -/

theorem writeFile_true_eq (fileSize : Nat) (ao : Nat → Nat → Bool) (so : Bool) :
    writeFile true fileSize ao so =
      (if ((List.range ((fileSize + clientBlockSize - 1) / clientBlockSize)).filter
          (fun i => !processSingleBlock (ao i))).isEmpty then (true, so)
       else (false, false)) :=
  rfl

/-- Claim C4: in whole-file upload, `store_metadata` is called iff every
block task ultimately succeeded (a task succeeds iff one of its three
attempts does); if some block fails after exhausting its retries the
upload returns failure without storing metadata. -/
theorem claim4_store_iff_all_blocks (fileSize : Nat) (attemptOk : Nat → Nat → Bool)
    (storeOk : Bool) :
    ((writeFile true fileSize attemptOk storeOk).1 = true ↔
      ∀ i < (fileSize + clientBlockSize - 1) / clientBlockSize,
        processSingleBlock (attemptOk i) = true) ∧
    (∀ f : Nat → Bool, processSingleBlock f = true ↔ ∃ a < 3, f a = true) ∧
    ((∃ i < (fileSize + clientBlockSize - 1) / clientBlockSize,
        processSingleBlock (attemptOk i) = false) →
      writeFile true fileSize attemptOk storeOk = (false, false)) := by
  rw [writeFile_true_eq]
  refine ⟨?_, ?_, ?_⟩
  · by_cases hemp : ((List.range ((fileSize + clientBlockSize - 1) / clientBlockSize)).filter
        (fun i => !processSingleBlock (attemptOk i))).isEmpty = true
    · rw [if_pos hemp]
      simp only [List.isEmpty_iff, List.filter_eq_nil_iff, List.mem_range] at hemp
      constructor
      · intro _ i hi
        have := hemp i hi
        simpa using this
      · intro _
        rfl
    · rw [if_neg hemp]
      simp only [List.isEmpty_iff, List.filter_eq_nil_iff, List.mem_range] at hemp
      push_neg at hemp
      obtain ⟨i, hi, hf⟩ := hemp
      simp only [Bool.not_eq_true', Bool.not_eq_false] at hf
      constructor
      · intro hcontra
        exact absurd hcontra (by simp)
      · intro hall
        have := hall i hi
        rw [this] at hf
        exact absurd hf (by simp)
  · intro f
    simp [processSingleBlock, List.any_eq_true]
  · rintro ⟨i, hi, hfail⟩
    rw [if_neg]
    simp only [List.isEmpty_iff, List.filter_eq_nil_iff, List.mem_range]
    push_neg
    exact ⟨i, hi, by simp [hfail]⟩

/-- Claim C4 witness: a 150-byte upload (one block) whose single block
succeeds on the second attempt does call `store_metadata`. -/
theorem claim4_witness :
    (writeFile true 150 (fun _ a => a == 1) true).1 = true :=
  (claim4_store_iff_all_blocks 150 (fun _ a => a == 1) true).1.mpr (by decide)

/-! ## Claim C6: the LRU metadata cache -/

/-- Claim C6: the cache never exceeds `max_cache_size` after a lookup, an
insert or an invalidation (given it did not before and the capacity is
positive — the source fixes it at 1000); a hit returns the entry and moves
it to the most-recently-used end; inserting a fresh key at capacity evicts
exactly the least-recently-used (head) entry; the last-touched key ends up
most-recently-used. -/
theorem claim6_lru_cache (σ : NameNode) (k : String) (v : FileMetadata)
    (hmax : 1 ≤ σ.max_cache_size) (hlen : σ.metadata_cache.length ≤ σ.max_cache_size) :
    ((cacheMetadata σ k v).metadata_cache.length ≤ σ.max_cache_size) ∧
    (((getCachedMetadata σ k).2).metadata_cache.length ≤ σ.max_cache_size) ∧
    ((cacheInvalidate σ k).metadata_cache.length ≤ σ.max_cache_size) ∧
    (∀ w, lookupKey σ.metadata_cache k = some w →
      (getCachedMetadata σ k).1 = some w ∧
      (getCachedMetadata σ k).2.metadata_cache = eraseKey σ.metadata_cache k ++ [(k, w)]) ∧
    (lookupKey σ.metadata_cache k = none →
      σ.metadata_cache.length = σ.max_cache_size →
      (cacheMetadata σ k v).metadata_cache = σ.metadata_cache.tail ++ [(k, v)]) ∧
    ((cacheMetadata σ k v).metadata_cache.getLast? = some (k, v)) ∧
    initNameNode.max_cache_size = 1000 := by
  refine ⟨?_, ?_, ?_, ?_, ?_, ?_, rfl⟩
  · by_cases hhit : (lookupKey σ.metadata_cache k).isSome
    · obtain ⟨w, hw⟩ := Option.isSome_iff_exists.mp hhit
      simp only [cacheMetadata, hhit, if_pos, List.length_append, List.length_cons,
        List.length_nil]
      have := length_eraseKey_of_found hw
      omega
    · simp only [cacheMetadata, hhit]
      by_cases hfull : σ.max_cache_size ≤ σ.metadata_cache.length
      · simp only [if_pos hfull, Bool.false_eq_true, if_false, List.length_append,
          List.length_cons, List.length_nil, List.length_tail]
        omega
      · simp only [if_neg hfull, Bool.false_eq_true, if_false, List.length_append,
          List.length_cons, List.length_nil]
        omega
  · cases hres : lookupKey σ.metadata_cache k with
    | none => simp [getCachedMetadata, hres, hlen]
    | some w =>
      simp only [getCachedMetadata, hres, List.length_append, List.length_cons,
        List.length_nil]
      have := length_eraseKey_of_found hres
      omega
  · have := length_eraseKey_le σ.metadata_cache k
    simp only [cacheInvalidate]
    omega
  · intro w hw
    simp [getCachedMetadata, hw]
  · intro hmiss hfull
    simp [cacheMetadata, hmiss, hfull]
  · by_cases hhit : (lookupKey σ.metadata_cache k).isSome
    · simp [cacheMetadata, hhit]
    · simp only [cacheMetadata, hhit, Bool.false_eq_true, if_false]
      by_cases hfull : σ.max_cache_size ≤ σ.metadata_cache.length
      · simp [if_pos hfull]
      · simp [if_neg hfull]

/-- Claim C6 witness: inserting a fresh key into a full two-entry cache
keeps the bound, and evicts exactly the least-recently-used entry. -/
theorem claim6_witness :
    (cacheMetadata
        { initNameNode with
            max_cache_size := 2
            metadata_cache := [("k1", ⟨"a", "/a", "__a", [], 0⟩),
                               ("k2", ⟨"b", "/b", "__b", [], 0⟩)] }
        "k3" ⟨"c", "/c", "__c", [], 0⟩).metadata_cache.length ≤ 2 :=
  (claim6_lru_cache
    { initNameNode with
        max_cache_size := 2
        metadata_cache := [("k1", ⟨"a", "/a", "__a", [], 0⟩),
                           ("k2", ⟨"b", "/b", "__b", [], 0⟩)] }
    "k3" ⟨"c", "/c", "__c", [], 0⟩ (by decide) (by decide)).1

/-! ## Claim C2: load-balanced placement -/

theorem pair_sublist_mem_take {α : Type} {l : List α} (hnd : l.Nodup)
    {x y : α} (h : [x, y].Sublist l) {k : Nat} (hy : y ∈ l.take k) : x ∈ l.take k := by
  induction l generalizing k with
  | nil => simp at hy
  | cons a t ih =>
    cases k with
    | zero => simp at hy
    | succ k =>
      rw [List.take_succ_cons] at hy ⊢
      cases h with
      | cons _ h' =>
        rcases List.mem_cons.mp hy with hy' | hy'
        · exfalso
          have hyt : y ∈ t := h'.subset (by simp)
          exact (List.nodup_cons.mp hnd).1 (hy' ▸ hyt)
        · exact List.mem_cons_of_mem _ (ih (List.nodup_cons.mp hnd).2 h' hy')
      | cons₂ _ h' =>
        exact List.mem_cons_self _ _

/-- Claim C2: placement returns `min R |live|` nodes, all live, exactly
those with smallest load (ties resolved toward earlier live-list order by
the stable sort), increments exactly the chosen counters by one, and
returns the empty selection only when no node is live. -/
theorem claim2_placement (σ : NameNode) (r : Nat) (hr : 1 ≤ r)
    (hnd : σ.datanodes.Nodup) :
    (getOptimalDatanodes σ r).1.length = min r σ.datanodes.length ∧
    (∀ x ∈ (getOptimalDatanodes σ r).1, x ∈ σ.datanodes) ∧
    (∀ x ∈ (getOptimalDatanodes σ r).1, ∀ y ∈ σ.datanodes,
      y ∉ (getOptimalDatanodes σ r).1 → σ.datanode_load x ≤ σ.datanode_load y) ∧
    (∀ x y : String, [x, y].Sublist σ.datanodes →
      σ.datanode_load x ≤ σ.datanode_load y →
      y ∈ (getOptimalDatanodes σ r).1 → x ∈ (getOptimalDatanodes σ r).1) ∧
    (∀ n, ((getOptimalDatanodes σ r).2).datanode_load n =
      if n ∈ (getOptimalDatanodes σ r).1 then σ.datanode_load n + 1
      else σ.datanode_load n) ∧
    ((getOptimalDatanodes σ r).1 = [] ↔ σ.datanodes = []) := by
  by_cases hD : σ.datanodes = []
  · simp [getOptimalDatanodes, hD]
  · haveI hTot : IsTotal String (fun a b => σ.datanode_load a ≤ σ.datanode_load b) :=
      ⟨fun a b => Nat.le_total _ _⟩
    haveI hTrans : IsTrans String (fun a b => σ.datanode_load a ≤ σ.datanode_load b) :=
      ⟨fun _ _ _ hab hbc => Nat.le_trans hab hbc⟩
    have hsel : (getOptimalDatanodes σ r).1 =
        (List.insertionSort (fun a b => σ.datanode_load a ≤ σ.datanode_load b)
          σ.datanodes).take r := by
      simp [getOptimalDatanodes, hD]
    have hperm := List.perm_insertionSort
      (fun a b => σ.datanode_load a ≤ σ.datanode_load b) σ.datanodes
    have hsorted := List.sorted_insertionSort
      (fun a b => σ.datanode_load a ≤ σ.datanode_load b) σ.datanodes
    refine ⟨?_, ?_, ?_, ?_, ?_, ?_⟩
    · rw [hsel, List.length_take, hperm.length_eq]
    · intro x hx
      rw [hsel] at hx
      exact hperm.mem_iff.mp (List.take_sublist _ _ |>.subset hx)
    · intro x hx y hyL hy
      rw [hsel] at hx hy
      have hyS : y ∈ (List.insertionSort (fun a b => σ.datanode_load a ≤ σ.datanode_load b)
          σ.datanodes) := hperm.mem_iff.mpr hyL
      rw [← List.take_append_drop r (List.insertionSort
        (fun a b => σ.datanode_load a ≤ σ.datanode_load b) σ.datanodes)] at hyS
      rcases List.mem_append.mp hyS with hy' | hy'
      · exact absurd hy' hy
      · have hpw := hsorted
        rw [List.Sorted, ← List.take_append_drop r (List.insertionSort
          (fun a b => σ.datanode_load a ≤ σ.datanode_load b) σ.datanodes),
          List.pairwise_append] at hpw
        exact hpw.2.2 x hx y hy'
    · intro x y hsub hle hy
      rw [hsel] at hy ⊢
      have hstab := List.pair_sublist_insertionSort
        (r := fun a b => σ.datanode_load a ≤ σ.datanode_load b) hle hsub
      have hndS := (hperm.nodup_iff).mpr hnd
      exact pair_sublist_mem_take hndS hstab hy
    · intro n
      simp [getOptimalDatanodes, hD]
    · rw [hsel]
      constructor
      · intro h
        rcases List.take_eq_nil_iff.mp h with h' | h'
        · omega
        · have := hperm.length_eq
          rw [List.length_eq_zero.mpr h'] at this
          exact List.length_eq_zero.mp this.symm
      · intro h
        exact absurd h hD

/-- Claim C2 witness: with live nodes `A, B, C` where `A` carries load 5,
a request for 2 replicas returns exactly `min 2 3` nodes. -/
theorem claim2_witness :
    (getOptimalDatanodes
      { initNameNode with
          datanodes := ["A", "B", "C"]
          datanode_load := fun n => if n = "A" then 5 else 0 } 2).1.length = min 2 3 :=
  (claim2_placement
    { initNameNode with
        datanodes := ["A", "B", "C"]
        datanode_load := fun n => if n = "A" then 5 else 0 } 2
    (by decide) (by decide)).1

/-! ## Claim C1: stored-file block invariants -/

theorem cacheMetadata_files (σ : NameNode) (k : String) (v : FileMetadata) :
    (cacheMetadata σ k v).files = σ.files := by
  unfold cacheMetadata
  split_ifs <;> rfl

theorem registerFileInDirectory_files (σ : NameNode) (fp : String) (md : FileMetadata) :
    (registerFileInDirectory σ fp md).files = σ.files := rfl

theorem buildBlocksFrom_sizes (n bs : Nat) (σ : NameNode) (idxs : List Nat) :
    (buildBlocksFrom n bs σ idxs).1.map BlockRef.size =
      idxs.map (fun i => if i < n - 1 then bs else bs / 2) := by
  induction idxs generalizing σ with
  | nil => rfl
  | cons i rest ih => simp [buildBlocksFrom, ih]

theorem range_sizes_map (a b m : Nat) :
    (List.range (m + 1)).map (fun i => if i < m then a else b) =
      List.replicate m a ++ [b] := by
  rw [List.range_succ, List.map_append]
  congr 1
  · have h : ∀ i ∈ List.range m, (if i < m then a else b) = a := by
      intro i hi
      exact if_pos (List.mem_range.mp hi)
    rw [List.map_congr_left h, List.map_const', List.length_range]
  · simp

/-- Claim C1 (amended): for the client's fixed block size 65536 the claim
holds: a successful `store_metadata` with omitted per-block metadata (the
only network path) persists a record with exactly `N` blocks, each of size
at most 65536 (the last one `65536 // 2`), `total_size` their sum, and
`|blocks| = ceil(total_size / 65536)`.  For other protocol-accepted block
sizes the invariant fails (see the counterexample). -/
theorem claim1_store_invariant_amended (σ : NameNode) (name cwd : String) (n : Nat)
    (hD : σ.datanodes ≠ []) :
    (storeFileMetadata σ name n 65536 none cwd).1 = true ∧
    (lookupKey ((storeFileMetadata σ name n 65536 none cwd).2).files
      (pathToKey (storeFullPath name cwd))).isSome = true ∧
    (∀ md, lookupKey ((storeFileMetadata σ name n 65536 none cwd).2).files
        (pathToKey (storeFullPath name cwd)) = some md →
      md.blocks.length = n ∧
      (∀ b ∈ md.blocks, b.size ≤ 65536) ∧
      md.total_size = (md.blocks.map BlockRef.size).sum ∧
      md.blocks.length = (md.total_size + 65535) / 65536) := by
  have hne : ((none : Option (List BlockRef)).isNone && σ.datanodes.isEmpty) = false := by
    simp [List.isEmpty_iff, hD]
  have hlook : ∀ md', lookupKey ((storeFileMetadata σ name n 65536 none cwd).2).files
      (pathToKey (storeFullPath name cwd)) = some md' →
      md' = { filename := if '/' ∈ name.data then basenameStr (normalizePath name) else name
              full_path := storeFullPath name cwd
              storage_name := pathToKey (storeFullPath name cwd)
              blocks := (buildBlocks σ n 65536).1
              total_size := ((buildBlocks σ n 65536).1.map BlockRef.size).sum } := by
    intro md' hmd
    simp only [storeFileMetadata, hne, Bool.false_eq_true, if_false,
      registerFileInDirectory_files, cacheMetadata_files] at hmd
    rw [lookupKey_setKey_self] at hmd
    exact (Option.some.inj hmd).symm
  have hstate : (storeFileMetadata σ name n 65536 none cwd).1 = true := by
    simp only [storeFileMetadata, hne, Bool.false_eq_true, if_false]
  have hsizes : (buildBlocks σ n 65536).1.map BlockRef.size =
      (List.range n).map (fun i => if i < n - 1 then 65536 else 65536 / 2) :=
    buildBlocksFrom_sizes n 65536 σ (List.range n)
  refine ⟨hstate, ?_, ?_⟩
  · simp only [storeFileMetadata, hne, Bool.false_eq_true, if_false,
      registerFileInDirectory_files, cacheMetadata_files]
    rw [lookupKey_setKey_self]
    rfl
  · intro md hmd
    obtain rfl := hlook md hmd
    simp only
    have hlen : (buildBlocks σ n 65536).1.length = n := by
      have := congrArg List.length hsizes
      simpa using this
    refine ⟨hlen, ?_, by trivial, ?_⟩
    · intro b hb
      have hmem : b.size ∈ (buildBlocks σ n 65536).1.map BlockRef.size :=
        List.mem_map_of_mem _ hb
      rw [hsizes] at hmem
      obtain ⟨i, _, hival⟩ := List.mem_map.mp hmem
      by_cases hi : i < n - 1
      · rw [if_pos hi] at hival
        omega
      · rw [if_neg hi] at hival
        omega
    · rw [hlen, hsizes]
      cases n with
      | zero => rfl
      | succ m =>
        have : m + 1 - 1 = m := rfl
        rw [this, range_sizes_map, List.sum_append, List.sum_replicate]
        simp only [List.sum_cons, List.sum_nil, smul_eq_mul]
        have h65 : (65536 : Nat) / 2 = 32768 := rfl
        rw [h65]
        omega

/-- Claim C1 counterexample: the protocol parses any integer block size
(namenode.py:593); storing 2 blocks of size 131072 persists a block larger
than 65536 and `|blocks| = 2 ≠ 3 = ceil(total_size / 65536)`, refuting the
claim for arbitrary accepted block sizes. -/
theorem claim1_counterexample :
    (storeFileMetadata (registerDatanode initNameNode "n1:8001")
        "f.txt" 2 131072 none "/").1 = true ∧
    (lookupKey ((storeFileMetadata (registerDatanode initNameNode "n1:8001")
          "f.txt" 2 131072 none "/").2).files "__f.txt").map
        (fun m => m.blocks.map BlockRef.size) = some [131072, 65536] ∧
    (lookupKey ((storeFileMetadata (registerDatanode initNameNode "n1:8001")
          "f.txt" 2 131072 none "/").2).files "__f.txt").map
        (fun m => (m.blocks.length, m.total_size)) = some (2, 196608) ∧
    (196608 + 65535) / 65536 = 3 ∧ ¬(131072 ≤ 65536) := by
  decide

/-- Claim C1 witness: the amended invariant at a concrete store of three
65536-sized blocks. -/
theorem claim1_witness :
    (storeFileMetadata (registerDatanode initNameNode "n1:8001")
        "g.txt" 3 65536 none "/").1 = true :=
  (claim1_store_invariant_amended (registerDatanode initNameNode "n1:8001")
    "g.txt" "/" 3 (by decide)).1

/-! ## Claim C3: read-path location filtering -/

theorem filterBlocks_sound {live : List String} {bl bs : List BlockRef}
    (h : filterBlocks live bl = some bs) :
    ∀ b ∈ bs, b.locations ≠ [] ∧ ∀ loc ∈ b.locations, loc ∈ live := by
  induction bl generalizing bs with
  | nil =>
    simp only [filterBlocks, Option.some.injEq] at h
    subst h
    simp
  | cons b rest ih =>
    simp only [filterBlocks] at h
    by_cases hl : b.locations.filter (fun l => decide (l ∈ live)) = []
    · rw [if_pos hl] at h
      exact absurd h (by simp)
    · rw [if_neg hl] at h
      cases hrec : filterBlocks live rest with
      | none =>
        rw [hrec] at h
        exact absurd h (by simp)
      | some bs' =>
        rw [hrec] at h
        simp only [Option.map_some', Option.some.injEq] at h
        subst h
        intro x hx
        rcases List.mem_cons.mp hx with hx | hx
        · subst hx
          refine ⟨hl, ?_⟩
          intro loc hloc
          have := List.mem_filter.mp hloc
          exact of_decide_eq_true this.2
        · exact ih hrec x hx

theorem mutateBlocks_of_filter {live : List String} {bl bs : List BlockRef}
    (h : filterBlocks live bl = some bs) : mutateBlocks live bl = bs := by
  induction bl generalizing bs with
  | nil =>
    simp only [filterBlocks, Option.some.injEq] at h
    subst h
    rfl
  | cons b rest ih =>
    simp only [filterBlocks] at h
    by_cases hl : b.locations.filter (fun l => decide (l ∈ live)) = []
    · rw [if_pos hl] at h
      exact absurd h (by simp)
    · rw [if_neg hl] at h
      cases hrec : filterBlocks live rest with
      | none =>
        rw [hrec] at h
        exact absurd h (by simp)
      | some bs' =>
        rw [hrec] at h
        simp only [Option.map_some', Option.some.injEq] at h
        subst h
        simp only [mutateBlocks]
        rw [if_neg hl, ih hrec]

theorem filterBlocks_id {live : List String} {bl : List BlockRef}
    (h : ∀ b ∈ bl, b.locations ≠ [] ∧ ∀ loc ∈ b.locations, loc ∈ live) :
    filterBlocks live bl = some bl := by
  induction bl with
  | nil => rfl
  | cons b rest ih =>
    obtain ⟨hne, hsub⟩ := h b (List.mem_cons_self _ _)
    have hfilt : b.locations.filter (fun l => decide (l ∈ live)) = b.locations := by
      apply List.filter_eq_self.mpr
      intro a ha
      exact decide_eq_true (hsub a ha)
    simp only [filterBlocks, hfilt]
    rw [if_neg hne, ih (fun x hx => h x (List.mem_cons_of_mem _ hx))]
    rfl

/-- Claim C3 (amended): a `get_metadata` request resolves the name, then
consults the cache entry if present and the durable record otherwise; the
returned metadata is the consulted record with each block's locations
intersected with the current live set, the request fails exactly when the
name does not resolve, no record is found, or some consulted block's
intersection is empty, and a returned block never has an empty location
list (each returned location is live).  The claim's "stored locations"
reading fails when the cache has diverged from the durable store (see the
counterexample). -/
theorem claim3_read_filter_amended (σ : NameNode) (filename currentDir : String) :
    (getFileMetadata σ filename currentDir).1 =
      (recordConsulted σ filename currentDir).bind (fun rec =>
        (filterBlocks σ.datanodes rec.blocks).map (fun bs => { rec with blocks := bs })) ∧
    (∀ m, (getFileMetadata σ filename currentDir).1 = some m →
      ∀ b ∈ m.blocks, b.locations ≠ [] ∧ ∀ loc ∈ b.locations, loc ∈ σ.datanodes) := by
  have heq : (getFileMetadata σ filename currentDir).1 =
      (recordConsulted σ filename currentDir).bind (fun rec =>
        (filterBlocks σ.datanodes rec.blocks).map (fun bs => { rec with blocks := bs })) := by
    unfold getFileMetadata recordConsulted
    cases hfp : getFileFullPath σ filename currentDir with
    | none => rfl
    | some fp =>
      cases hc : lookupKey σ.metadata_cache (pathToKey fp) with
      | some rec =>
        cases hf : filterBlocks σ.datanodes rec.blocks with
        | some bs => simp [hc, hf]
        | none => simp [hc, hf]
      | none =>
        cases hfile : lookupKey σ.files (pathToKey fp) with
        | none => simp [hc, hfile]
        | some rec =>
          cases hf : filterBlocks σ.datanodes rec.blocks with
          | some bs => simp [hc, hfile, hf]
          | none => simp [hc, hfile, hf]
  refine ⟨heq, ?_⟩
  intro m hm
  rw [heq] at hm
  cases hrc : recordConsulted σ filename currentDir with
  | none =>
    rw [hrc] at hm
    exact absurd hm (by simp)
  | some rec =>
    rw [hrc] at hm
    have hm' : (filterBlocks σ.datanodes rec.blocks).map
        (fun bs => { rec with blocks := bs }) = some m := hm
    cases hf : filterBlocks σ.datanodes rec.blocks with
    | none =>
      rw [hf] at hm'
      exact absurd hm' (by simp)
    | some bs =>
      rw [hf] at hm'
      simp only [Option.map_some', Option.some.injEq] at hm'
      intro b hb
      apply filterBlocks_sound hf
      rw [← hm'] at hb
      exact hb

/-- Claim C3 counterexample: in `scnRevived` the file `a.txt` exists, both
of its stored replicas (`a:1`, `b:1`) are live, yet `get_metadata` returns
only `["b:1"]` — the stale cache entry, not the stored locations
intersected with the live set.  The claim as stated is refuted. -/
theorem claim3_counterexample :
    (getFileMetadata scnRevived "a.txt" "/").1.map (fun m => m.blocks.map BlockRef.locations)
      = some [["b:1"]] ∧
    (lookupKey scnRevived.files "__a.txt").map
      (fun m => m.blocks.map (fun b =>
        b.locations.filter (fun l => decide (l ∈ scnRevived.datanodes))))
      = some [["a:1", "b:1"]] ∧
    (some [["b:1"]] : Option (List (List String))) ≠ some [["a:1", "b:1"]] := by
  decide

/-- Claim C3 witness: the amended characterization evaluated at
`scnRevived`: the returned metadata is the consulted (cached) record
filtered by the live set. -/
theorem claim3_witness :
    (getFileMetadata scnRevived "a.txt" "/").1 =
      (recordConsulted scnRevived "a.txt" "/").bind (fun rec =>
        (filterBlocks scnRevived.datanodes rec.blocks).map
          (fun bs => { rec with blocks := bs })) :=
  (claim3_read_filter_amended scnRevived "a.txt" "/").1

/-! ## Claim C10: destructive cache filtering and staleness -/

theorem registerDatanode_directories (σ : NameNode) (a : String) :
    (registerDatanode σ a).directories = σ.directories := by
  unfold registerDatanode
  split_ifs <;> rfl

theorem registerDatanode_files (σ : NameNode) (a : String) :
    (registerDatanode σ a).files = σ.files := by
  unfold registerDatanode
  split_ifs <;> rfl

theorem registerDatanode_cache (σ : NameNode) (a : String) :
    (registerDatanode σ a).metadata_cache = σ.metadata_cache := by
  unfold registerDatanode
  split_ifs <;> rfl

theorem registerDatanode_subset (σ : NameNode) (a : String) :
    ∀ x ∈ σ.datanodes, x ∈ (registerDatanode σ a).datanodes := by
  intro x hx
  unfold registerDatanode
  split_ifs
  · exact hx
  · exact List.mem_append_left _ hx

theorem pathExists_congr {σ₁ σ₂ : NameNode} (hd : σ₁.directories = σ₂.directories)
    (hf : σ₁.files = σ₂.files) (p : String) : pathExists σ₁ p = pathExists σ₂ p := by
  unfold pathExists
  rw [hd, hf]

theorem getFileFullPath_congr {σ₁ σ₂ : NameNode} (hd : σ₁.directories = σ₂.directories)
    (hf : σ₁.files = σ₂.files) (n c : String) :
    getFileFullPath σ₁ n c = getFileFullPath σ₂ n c := by
  unfold getFileFullPath
  simp only [pathExists_congr hd hf]

theorem lookupKey_tail_none {α : Type} {l : List (String × α)} {k : String}
    (h : lookupKey l k = none) : lookupKey l.tail k = none := by
  apply lookupKey_eq_none_of_forall
  intro kv hkv hcontra
  have hmem : kv ∈ l := List.mem_of_mem_tail hkv
  have hsome := lookupKey_isSome_of_mem hmem
  rw [hcontra, h] at hsome
  simp at hsome

/-- The cache-hit branch of `get_file_metadata`, as one equation. -/
theorem getFileMetadata_cache_hit {σ : NameNode} {name cd fp : String} {rec : FileMetadata}
    (h1 : getFileFullPath σ name cd = some fp)
    (h2 : lookupKey σ.metadata_cache (pathToKey fp) = some rec) :
    getFileMetadata σ name cd =
      ((filterBlocks σ.datanodes rec.blocks).map (fun bs => { rec with blocks := bs }),
       { σ with metadata_cache := setKey (eraseKey σ.metadata_cache (pathToKey fp) ++ [(pathToKey fp, rec)]) (pathToKey fp) { rec with blocks := mutateBlocks σ.datanodes rec.blocks } }) := by
  unfold getFileMetadata
  rw [h1]
  cases hf : filterBlocks σ.datanodes rec.blocks with
  | none => simp [h2, hf]
  | some bs => simp [h2, hf]

/-- The durable-store branch of `get_file_metadata`, as one equation. -/
theorem getFileMetadata_store_hit {σ : NameNode} {name cd fp : String} {rec : FileMetadata}
    (h1 : getFileFullPath σ name cd = some fp)
    (h2 : lookupKey σ.metadata_cache (pathToKey fp) = none)
    (h3 : lookupKey σ.files (pathToKey fp) = some rec) :
    getFileMetadata σ name cd =
      (match filterBlocks σ.datanodes rec.blocks with
       | some bs =>
         (some { rec with blocks := bs }, cacheMetadata σ (pathToKey fp) { rec with blocks := bs })
       | none => (none, σ)) := by
  unfold getFileMetadata
  rw [h1]
  cases hf : filterBlocks σ.datanodes rec.blocks with
  | none => simp [h2, h3, hf]
  | some bs => simp [h2, h3, hf]

/-- Claim C10: a cache hit destructively replaces the cached entry's
blocks by their live-filtered version (on success the entry becomes
exactly the returned metadata); every returned location excludes any node
`d` dead at lookup time; if `d` then re-registers, a second lookup still
returns the same stale metadata without `d`; and the durable-store path
caches the already-filtered record. -/
theorem claim10_cache_staleness
    (σ : NameNode) (name cd fp : String) (rec m : FileMetadata) (d : String)
    (name2 cd2 fp2 : String) (rec2 m2 : FileMetadata)
    (h1 : getFileFullPath σ name cd = some fp)
    (h2 : lookupKey σ.metadata_cache (pathToKey fp) = some rec)
    (h3 : (getFileMetadata σ name cd).1 = some m)
    (hd : d ∉ σ.datanodes)
    (h5 : getFileFullPath σ name2 cd2 = some fp2)
    (h6 : lookupKey σ.metadata_cache (pathToKey fp2) = none)
    (h7 : lookupKey σ.files (pathToKey fp2) = some rec2)
    (h8 : (getFileMetadata σ name2 cd2).1 = some m2) :
    lookupKey ((getFileMetadata σ name cd).2).metadata_cache (pathToKey fp) = some m ∧
    (∀ b ∈ m.blocks, d ∉ b.locations) ∧
    (getFileMetadata (registerDatanode (getFileMetadata σ name cd).2 d) name cd).1
      = some m ∧
    lookupKey ((getFileMetadata σ name2 cd2).2).metadata_cache (pathToKey fp2) = some m2 := by
  have hbranch := getFileMetadata_cache_hit h1 h2
  obtain ⟨bs, hf⟩ : ∃ bs, filterBlocks σ.datanodes rec.blocks = some bs := by
    cases hf : filterBlocks σ.datanodes rec.blocks with
    | none =>
      rw [hbranch] at h3
      rw [hf] at h3
      exact absurd h3 (by simp)
    | some bs => exact ⟨bs, rfl⟩
  have hmval : m = { rec with blocks := bs } := by
    rw [hbranch] at h3
    rw [hf] at h3
    simp only [Option.map_some'] at h3
    exact (Option.some.inj h3).symm
  have hmutate : mutateBlocks σ.datanodes rec.blocks = bs := mutateBlocks_of_filter hf
  have hsound := filterBlocks_sound hf
  have hstate : ((getFileMetadata σ name cd).2).metadata_cache =
      setKey (eraseKey σ.metadata_cache (pathToKey fp) ++ [(pathToKey fp, rec)]) (pathToKey fp) { rec with blocks := mutateBlocks σ.datanodes rec.blocks } := by
    rw [hbranch]
  have hdirs : ((getFileMetadata σ name cd).2).directories = σ.directories := by
    rw [hbranch]
  have hfiles : ((getFileMetadata σ name cd).2).files = σ.files := by
    rw [hbranch]
  have hnodes : ((getFileMetadata σ name cd).2).datanodes = σ.datanodes := by
    rw [hbranch]
  have hconc1 : lookupKey ((getFileMetadata σ name cd).2).metadata_cache (pathToKey fp)
      = some m := by
    rw [hstate, lookupKey_setKey_self, hmutate, ← hmval]
  have hconc2 : ∀ b ∈ m.blocks, d ∉ b.locations := by
    intro b hb hcontra
    have hb' : b ∈ bs := by
      rw [hmval] at hb
      exact hb
    exact hd ((hsound b hb').2 d hcontra)
  refine ⟨hconc1, hconc2, ?_, ?_⟩
  · have hdirs2 : (registerDatanode (getFileMetadata σ name cd).2 d).directories
        = σ.directories := by
      rw [registerDatanode_directories, hdirs]
    have hfiles2 : (registerDatanode (getFileMetadata σ name cd).2 d).files = σ.files := by
      rw [registerDatanode_files, hfiles]
    have hres : getFileFullPath (registerDatanode (getFileMetadata σ name cd).2 d) name cd
        = some fp := by
      rw [getFileFullPath_congr hdirs2 hfiles2, h1]
    have hcache : lookupKey
        (registerDatanode (getFileMetadata σ name cd).2 d).metadata_cache (pathToKey fp)
        = some m := by
      rw [registerDatanode_cache]
      exact hconc1
    have hlive : ∀ x ∈ σ.datanodes,
        x ∈ (registerDatanode (getFileMetadata σ name cd).2 d).datanodes := by
      intro x hx
      apply registerDatanode_subset
      rw [hnodes]
      exact hx
    have hfid : filterBlocks
        (registerDatanode (getFileMetadata σ name cd).2 d).datanodes m.blocks
        = some m.blocks := by
      apply filterBlocks_id
      intro b hb
      have hb' : b ∈ bs := by
        rw [hmval] at hb
        exact hb
      refine ⟨(hsound b hb').1, ?_⟩
      intro loc hloc
      exact hlive loc ((hsound b hb').2 loc hloc)
    rw [getFileMetadata_cache_hit hres hcache, hfid]
    simp
  · have hbranch2 := getFileMetadata_store_hit h5 h6 h7
    obtain ⟨bs2, hf2⟩ : ∃ bs2, filterBlocks σ.datanodes rec2.blocks = some bs2 := by
      cases hf2 : filterBlocks σ.datanodes rec2.blocks with
      | none =>
        rw [hbranch2] at h8
        rw [hf2] at h8
        exact absurd h8 (by simp)
      | some bs2 => exact ⟨bs2, rfl⟩
    have hm2val : m2 = { rec2 with blocks := bs2 } := by
      rw [hbranch2] at h8
      rw [hf2] at h8
      exact (Option.some.inj h8).symm
    have hstate2 : ((getFileMetadata σ name2 cd2).2)
        = cacheMetadata σ (pathToKey fp2) { rec2 with blocks := bs2 } := by
      rw [hbranch2]
      rw [hf2]
    rw [hstate2, ← hm2val]
    unfold cacheMetadata
    rw [h6]
    simp only [Option.isSome_none, Bool.false_eq_true, if_false]
    by_cases hfull : σ.max_cache_size ≤ σ.metadata_cache.length
    · rw [if_pos hfull]
      show lookupKey (σ.metadata_cache.tail ++ [(pathToKey fp2, m2)]) (pathToKey fp2) = some m2
      rw [lookupKey_append, lookupKey_tail_none h6]
      simp [lookupKey]
    · rw [if_neg hfull]
      show lookupKey (σ.metadata_cache ++ [(pathToKey fp2, m2)]) (pathToKey fp2) = some m2
      rw [lookupKey_append, h6]
      simp [lookupKey]

/-- Claim C10 witness: at `scnStale` (node `A` dead, `a.txt` cached,
`b.txt` only durable), the lookup of `a.txt` leaves a cache entry whose
single block lists only `B`. -/
theorem claim10_witness :
    lookupKey ((getFileMetadata scnStale "a.txt" "/").2).metadata_cache
        (pathToKey "/a.txt")
      = some { mdOnAB with blocks := [{ block_id := "block_0", size := 7,
                                        locations := ["B"] }] } :=
  (claim10_cache_staleness scnStale "a.txt" "/" "/a.txt" mdOnAB
    { mdOnAB with blocks := [{ block_id := "block_0", size := 7, locations := ["B"] }] }
    "A" "b.txt" "/" "/b.txt" mdOnAB2
    { mdOnAB2 with blocks := [{ block_id := "block_0", size := 7, locations := ["B"] }] }
    (by decide) (by decide) (by decide) (by decide)
    (by decide) (by decide) (by decide) (by decide)).1

/-! ## Claim C8: name resolution

First the canonicalization machinery: `normalize_path` always emits
`'/' + '/'.join(comps)` over "good" components (nonempty, not `.` or
`..`, slash-free), and is the identity on such renderings. -/

theorem splitSlash_ne_nil (l : List Char) : splitSlash l ≠ [] := by
  cases l with
  | nil => simp [splitSlash]
  | cons c rest =>
    by_cases h : c = '/'
    · simp [splitSlash, h]
    · simp only [splitSlash, if_neg h]
      cases splitSlash rest with
      | nil => simp
      | cons p ps => simp

theorem no_slash_of_mem_splitSlash : ∀ l p, p ∈ splitSlash l → '/' ∉ p := by
  intro l
  induction l with
  | nil =>
    intro p hp
    simp only [splitSlash, List.mem_singleton] at hp
    subst hp
    simp
  | cons c rest ih =>
    intro p hp
    by_cases h : c = '/'
    · simp only [splitSlash, if_pos h, List.mem_cons] at hp
      rcases hp with hp | hp
      · subst hp
        simp
      · exact ih p hp
    · simp only [splitSlash, if_neg h] at hp
      cases hsp : splitSlash rest with
      | nil => exact absurd hsp (splitSlash_ne_nil rest)
      | cons q qs =>
        rw [hsp] at hp
        rcases List.mem_cons.mp hp with hp | hp
        · subst hp
          intro hmem
          rcases List.mem_cons.mp hmem with hc | hq
          · exact h hc.symm
          · exact ih q (hsp ▸ List.mem_cons_self _ _) hq
        · exact ih p (hsp ▸ List.mem_cons_of_mem _ hp)

/-- The component well-formedness invariant, in `Prop` form. -/
theorem goodCompB_iff (c : List Char) :
    goodCompB c = true ↔ (c ≠ [] ∧ c ≠ ['.'] ∧ c ≠ ['.', '.'] ∧ '/' ∉ c) := by
  simp [goodCompB]

theorem processComps_good : ∀ xs acc,
    (∀ a ∈ acc, goodCompB a = true) → (∀ x ∈ xs, '/' ∉ x) →
    ∀ c ∈ processComps acc xs, goodCompB c = true := by
  intro xs
  induction xs with
  | nil =>
    intro acc hacc _ c hc
    exact hacc c hc
  | cons x rest ih =>
    intro acc hacc hxs c hc
    simp only [processComps] at hc
    by_cases h1 : x = [] ∨ x = ['.']
    · rw [if_pos h1] at hc
      exact ih acc hacc (fun y hy => hxs y (List.mem_cons_of_mem _ hy)) c hc
    · rw [if_neg h1] at hc
      by_cases h2 : x = ['.', '.']
      · rw [if_pos h2] at hc
        refine ih acc.dropLast ?_ (fun y hy => hxs y (List.mem_cons_of_mem _ hy)) c hc
        intro a ha
        exact hacc a ((List.dropLast_sublist acc).subset ha)
      · rw [if_neg h2] at hc
        refine ih (acc ++ [x]) ?_ (fun y hy => hxs y (List.mem_cons_of_mem _ hy)) c hc
        intro a ha
        rcases List.mem_append.mp ha with ha | ha
        · exact hacc a ha
        · rw [List.mem_singleton.mp ha]
          rw [goodCompB_iff]
          push_neg at h1
          exact ⟨h1.1, h1.2, h2, hxs x (List.mem_cons_self _ _)⟩

theorem splitSlash_noSlash {c : List Char} (h : '/' ∉ c) : splitSlash c = [c] := by
  induction c with
  | nil => rfl
  | cons a t ih =>
    have ha : a ≠ '/' := fun hh => h (hh ▸ List.mem_cons_self _ _)
    have ht : '/' ∉ t := fun hh => h (List.mem_cons_of_mem _ hh)
    simp only [splitSlash, if_neg ha, ih ht]

theorem splitSlash_append_slash {c : List Char} (l : List Char) (h : '/' ∉ c) :
    splitSlash (c ++ '/' :: l) = c :: splitSlash l := by
  induction c with
  | nil => simp [splitSlash]
  | cons a t ih =>
    have ha : a ≠ '/' := fun hh => h (hh ▸ List.mem_cons_self _ _)
    have ht : '/' ∉ t := fun hh => h (List.mem_cons_of_mem _ hh)
    simp only [List.cons_append, splitSlash, if_neg ha, List.append_eq]
    rw [ih ht]

theorem joinComps_cons_cons (c c2 : List Char) (rest : List (List Char)) :
    joinComps (c :: c2 :: rest) = c ++ '/' :: joinComps (c2 :: rest) := rfl

theorem split_join : ∀ comps, (∀ c ∈ comps, '/' ∉ c) → comps ≠ [] →
    splitSlash (joinComps comps) = comps := by
  intro comps
  induction comps with
  | nil => intro _ h; exact absurd rfl h
  | cons c rest ih =>
    intro hns _
    cases rest with
    | nil =>
      show splitSlash (joinComps [c]) = [c]
      exact splitSlash_noSlash (hns c (List.mem_cons_self _ _))
    | cons c2 rest2 =>
      rw [joinComps_cons_cons, splitSlash_append_slash _ (hns c (List.mem_cons_self _ _)),
        ih (fun x hx => hns x (List.mem_cons_of_mem _ hx)) (by simp)]

theorem processComps_all_good : ∀ xs acc, (∀ x ∈ xs, goodCompB x = true) →
    processComps acc xs = acc ++ xs := by
  intro xs
  induction xs with
  | nil => intro acc _; simp [processComps]
  | cons x rest ih =>
    intro acc hxs
    have hx := (goodCompB_iff x).mp (hxs x (List.mem_cons_self _ _))
    have h1 : ¬(x = [] ∨ x = ['.']) := by
      push_neg
      exact ⟨hx.1, hx.2.1⟩
    simp only [processComps, if_neg h1, if_neg hx.2.2.1]
    rw [ih (acc ++ [x]) (fun y hy => hxs y (List.mem_cons_of_mem _ hy))]
    simp

theorem normalize_render (comps : List (List Char)) (h : ∀ c ∈ comps, goodCompB c = true) :
    normalizeChars (renderComps comps) = renderComps comps := by
  cases comps with
  | nil => decide
  | cons c rest =>
    have hns : ∀ x ∈ c :: rest, '/' ∉ x := by
      intro x hx
      exact ((goodCompB_iff x).mp (h x hx)).2.2.2
    show normalizeChars ('/' :: joinComps (c :: rest)) = renderComps (c :: rest)
    unfold normalizeChars
    simp only [List.head?_cons, if_pos rfl]
    show renderComps (processComps [] (splitSlash ('/' :: joinComps (c :: rest))))
      = renderComps (c :: rest)
    have hsplit : splitSlash ('/' :: joinComps (c :: rest))
        = [] :: splitSlash (joinComps (c :: rest)) := by
      simp [splitSlash]
    rw [hsplit, split_join _ hns (by simp)]
    show renderComps (processComps [] ([] :: c :: rest)) = renderComps (c :: rest)
    have : processComps [] ([] :: c :: rest) = processComps [] (c :: rest) := by
      simp [processComps]
    rw [this, processComps_all_good _ _ h]
    rfl

theorem normalizeChars_spec (l : List Char) :
    ∃ comps, (∀ c ∈ comps, goodCompB c = true) ∧ normalizeChars l = renderComps comps := by
  refine ⟨processComps [] (splitSlash (if l.head? = some '/' then l else '/' :: l)), ?_, rfl⟩
  exact processComps_good _ [] (by simp)
    (no_slash_of_mem_splitSlash (if l.head? = some '/' then l else '/' :: l))

theorem normalizePath_idem (s : String) :
    normalizePath (normalizePath s) = normalizePath s := by
  obtain ⟨comps, hgood, heq⟩ := normalizeChars_spec s.data
  show String.mk (normalizeChars (normalizeChars s.data)) = String.mk (normalizeChars s.data)
  rw [heq, normalize_render comps hgood]

theorem getLast_no_slash : ∀ {c : List Char}, '/' ∉ c → c ≠ [] →
    ∃ x, c.getLast? = some x ∧ x ≠ '/' := by
  intro c
  induction c with
  | nil => intro _ h; exact absurd rfl h
  | cons a t ih =>
    intro h _
    cases t with
    | nil =>
      refine ⟨a, rfl, ?_⟩
      intro hh
      exact h (hh ▸ List.mem_cons_self _ _)
    | cons b t2 =>
      obtain ⟨x, hx, hxs⟩ := ih (fun hh => h (List.mem_cons_of_mem _ hh)) (by simp)
      exact ⟨x, by rw [List.getLast?_cons_cons]; exact hx, hxs⟩

theorem getLast?_cons_of_ne_nil {a : Char} {l : List Char} (h : l ≠ []) :
    (a :: l).getLast? = l.getLast? := by
  cases l with
  | nil => exact absurd rfl h
  | cons b t => rw [List.getLast?_cons_cons]

theorem joinLast : ∀ comps, (∀ c ∈ comps, goodCompB c = true) → comps ≠ [] →
    ∃ x, (joinComps comps).getLast? = some x ∧ x ≠ '/' := by
  intro comps
  induction comps with
  | nil => intro _ h; exact absurd rfl h
  | cons c rest ih =>
    intro hg _
    have hgc := (goodCompB_iff c).mp (hg c (List.mem_cons_self _ _))
    cases rest with
    | nil => exact getLast_no_slash hgc.2.2.2 hgc.1
    | cons c2 rest2 =>
      obtain ⟨x, hx, hxs⟩ := ih (fun y hy => hg y (List.mem_cons_of_mem _ hy)) (by simp)
      refine ⟨x, ?_, hxs⟩
      have hne : joinComps (c2 :: rest2) ≠ [] := by
        intro hcontra
        rw [hcontra] at hx
        simp at hx
      rw [joinComps_cons_cons, List.getLast?_append, getLast?_cons_of_ne_nil hne, hx]
      rfl

theorem renderLast (comps : List (List Char)) (hg : ∀ c ∈ comps, goodCompB c = true)
    (hne : comps ≠ []) : (renderComps comps).getLast? ≠ some '/' := by
  obtain ⟨x, hx, hxs⟩ := joinLast comps hg hne
  have hjn : joinComps comps ≠ [] := by
    intro hcontra
    rw [hcontra] at hx
    simp at hx
  unfold renderComps
  rw [getLast?_cons_of_ne_nil hjn, hx]
  simp [hxs]

theorem joinComps_append_single : ∀ comps (nd : List Char), comps ≠ [] →
    joinComps (comps ++ [nd]) = joinComps comps ++ '/' :: nd := by
  intro comps
  induction comps with
  | nil => intro nd h; exact absurd rfl h
  | cons c rest ih =>
    intro nd _
    cases rest with
    | nil => rfl
    | cons c2 rest2 =>
      show joinComps (c :: (c2 :: rest2 ++ [nd])) = (c ++ '/' :: joinComps (c2 :: rest2)) ++ '/' :: nd
      have h2 : c2 :: rest2 ++ [nd] = c2 :: (rest2 ++ [nd]) := rfl
      cases hrn : rest2 ++ [nd] with
      | nil => exact absurd hrn (by simp)
      | cons z zs =>
        rw [h2, hrn, joinComps_cons_cons]
        have := ih nd (by simp)
        rw [h2, hrn] at this
        rw [this]
        simp [joinComps_cons_cons]

theorem pyJoin_render (comps : List (List Char)) (name : String)
    (hg : ∀ c ∈ comps, goodCompB c = true) (hn : goodCompB name.data = true) :
    pyJoin ⟨renderComps comps⟩ name = ⟨renderComps (comps ++ [name.data])⟩ := by
  have hnd := (goodCompB_iff name.data).mp hn
  have hhead : ¬(name.data.head? = some '/') := by
    cases hnm : name.data with
    | nil => simp
    | cons a t =>
      simp only [List.head?_cons, Option.some.injEq]
      intro hcontra
      exact hnd.2.2.2 (hcontra ▸ (hnm ▸ List.mem_cons_self a t))
  cases comps with
  | nil =>
    unfold pyJoin
    rw [if_neg hhead]
    have : (String.mk (renderComps [])).data.getLast? = some '/' := rfl
    rw [if_pos (Or.inr this)]
    rfl
  | cons c rest =>
    unfold pyJoin
    rw [if_neg hhead, if_neg]
    · show String.mk (renderComps (c :: rest) ++ '/' :: name.data) = _
      unfold renderComps
      rw [joinComps_append_single (c :: rest) name.data (by simp)]
      rfl
    · push_neg
      constructor
      · show renderComps (c :: rest) ≠ []
        unfold renderComps
        simp
      · show (renderComps (c :: rest)).getLast? ≠ some '/'
        exact renderLast (c :: rest) hg (by simp)

/-- Claim C8 (amended): `get_file_full_path` returns the resolved target
iff it exists (existence checked on the normalized form); a name
containing `/` resolves to a canonical path (absolute names normalized
directly, relative ones joined to the normalized cwd first); but a name
without `/` is joined to the cwd *verbatim* and returned without
canonicalization, which is canonical only when the name is a regular
component — for a name such as `..` or `.` the returned path is not
canonical (see the counterexample). -/
theorem claim8_name_resolution_amended (σ : NameNode) (name cd : String) :
    getFileFullPath σ name cd =
      (if pathExists σ (resolveName name cd) then some (resolveName name cd) else none) ∧
    ('/' ∈ name.data → normalizePath (resolveName name cd) = resolveName name cd) ∧
    ('/' ∉ name.data → goodCompB name.data = true →
      normalizePath (resolveName name cd) = resolveName name cd) := by
  refine ⟨rfl, ?_, ?_⟩
  · intro hslash
    unfold resolveName
    rw [if_pos hslash]
    by_cases habs : name.data.head? = some '/'
    · rw [if_pos habs]
      exact normalizePath_idem name
    · rw [if_neg habs]
      exact normalizePath_idem _
  · intro hnoslash hgood
    unfold resolveName
    rw [if_neg hnoslash]
    obtain ⟨comps, hcg, hcc⟩ := normalizeChars_spec cd.data
    have hcd : normalizePath cd = ⟨renderComps comps⟩ := by
      show String.mk (normalizeChars cd.data) = _
      rw [hcc]
    rw [hcd, pyJoin_render comps name hcg hgood]
    show String.mk (normalizeChars (renderComps (comps ++ [name.data]))) = _
    rw [normalize_render]
    intro c hc
    rcases List.mem_append.mp hc with hc | hc
    · exact hcg c hc
    · rw [List.mem_singleton.mp hc]
      exact hgood

/-- Claim C8 counterexample: with cwd `/p` the slash-free name `..` names
the root (which exists), but `get_file_full_path` returns the
non-canonical `/p/..` rather than the canonical path `/` of the named
object, refuting "every non-null result is a canonical path". -/
theorem claim8_counterexample :
    getFileFullPath initNameNode ".." "/p" = some "/p/.." ∧
    normalizePath "/p/.." = "/" ∧
    "/p/.." ≠ "/" ∧
    pathExists initNameNode "/p/.." = true := by
  decide

/-- Claim C8 witness: a slash-containing relative name resolves to a
canonical path. -/
theorem claim8_witness :
    normalizePath (resolveName "q/../r.txt" "/p") = resolveName "q/../r.txt" "/p" :=
  (claim8_name_resolution_amended initNameNode "q/../r.txt" "/p").2.1 (by decide)

/-! ## Claim C5: recursive directory deletion -/

theorem strLeChars_total : ∀ a b, strLeChars a b = true ∨ strLeChars b a = true := by
  intro a
  induction a with
  | nil => intro b; left; rfl
  | cons x xs ih =>
    intro b
    cases b with
    | nil => right; rfl
    | cons y ys =>
      by_cases h1 : x.toNat < y.toNat
      · left; simp [strLeChars, h1]
      · by_cases h2 : y.toNat < x.toNat
        · right; simp [strLeChars, h2]
        · rcases ih ys with h | h
          · left; simp [strLeChars, h1, h2, h]
          · right; simp [strLeChars, h1, h2, h]

theorem strLeChars_trans : ∀ a b c, strLeChars a b = true → strLeChars b c = true →
    strLeChars a c = true := by
  intro a
  induction a with
  | nil => intro b c _ _; rfl
  | cons x xs ih =>
    intro b c hab hbc
    cases b with
    | nil => simp [strLeChars] at hab
    | cons y ys =>
      cases c with
      | nil => simp [strLeChars] at hbc
      | cons z zs =>
        simp only [strLeChars] at hab hbc ⊢
        by_cases h1 : x.toNat < y.toNat
        · by_cases h2 : y.toNat < z.toNat
          · rw [if_pos (by omega : x.toNat < z.toNat)]
          · rw [if_neg h2] at hbc
            by_cases h4 : z.toNat < y.toNat
            · rw [if_pos h4] at hbc
              exact absurd hbc (by simp)
            · rw [if_pos (by omega : x.toNat < z.toNat)]
        · rw [if_neg h1] at hab
          by_cases h5 : y.toNat < x.toNat
          · rw [if_pos h5] at hab
            exact absurd hab (by simp)
          · rw [if_neg h5] at hab
            by_cases h2 : y.toNat < z.toNat
            · rw [if_pos (by omega : x.toNat < z.toNat)]
            · rw [if_neg h2] at hbc
              by_cases h4 : z.toNat < y.toNat
              · rw [if_pos h4] at hbc
                exact absurd hbc (by simp)
              · rw [if_neg h4] at hbc
                rw [if_neg (by omega : ¬x.toNat < z.toNat),
                  if_neg (by omega : ¬z.toNat < x.toNat)]
                exact ih ys zs hab hbc

theorem strLeChars_append_false : ∀ (l t : List Char), t ≠ [] →
    strLeChars (l ++ t) l = false := by
  intro l
  induction l with
  | nil =>
    intro t ht
    cases t with
    | nil => exact absurd rfl ht
    | cons c ts => rfl
  | cons x xs ih =>
    intro t ht
    show strLeChars (x :: (xs ++ t)) (x :: xs) = false
    simp only [strLeChars]
    rw [if_neg (Nat.lt_irrefl _), if_neg (Nat.lt_irrefl _)]
    exact ih t ht

theorem strLe_false_of_underDir {a b : String} (h : underDir a b = true) :
    strLe b a = false := by
  unfold underDir at h
  obtain ⟨t, ht⟩ := List.isPrefixOf_iff_prefix.mp h
  unfold strLe
  rw [← ht]
  have hap : (a ++ "/").data = a.data ++ ['/'] := by
    rw [String.data_append]
  rw [hap, List.append_assoc]
  exact strLeChars_append_false a.data (['/'] ++ t) (by simp)

theorem mem_deletionOrder {dps : List String} {p K : String} :
    K ∈ deletionOrder dps p ↔ (K ∈ dps ∨ K = p) := by
  unfold deletionOrder
  rw [List.mem_reverse, (List.perm_insertionSort _ _).mem_iff]
  simp

theorem deletionOrder_pairwise (dps : List String) (p : String) :
    (deletionOrder dps p).Pairwise (fun a b => underDir a b = false) := by
  unfold deletionOrder
  rw [List.pairwise_reverse]
  haveI : IsTotal String (fun a b => strLe a b = true) :=
    ⟨fun a b => strLeChars_total a.data b.data⟩
  haveI : IsTrans String (fun a b => strLe a b = true) :=
    ⟨fun a b c => strLeChars_trans a.data b.data c.data⟩
  have hs := List.sorted_insertionSort (fun a b : String => strLe a b = true) (dps ++ [p])
  refine hs.imp ?_
  intro a b hab
  cases h' : underDir b a with
  | false => rfl
  | true =>
    rw [strLe_false_of_underDir h'] at hab
    exact absurd hab (by simp)

theorem filesFold_directories : ∀ fps σ, ((filesFold σ fps).2).directories = σ.directories := by
  intro fps
  induction fps with
  | nil => intro σ; rfl
  | cons fp rest ih =>
    intro σ
    exact ih _

theorem mem_filesFold_files : ∀ fps σ (kv : String × FileMetadata),
    kv ∈ ((filesFold σ fps).2).files ↔ kv ∈ σ.files ∧ kv.1 ∉ fps.map pathToKey := by
  intro fps
  induction fps with
  | nil => intro σ kv; simp [filesFold]
  | cons fp rest ih =>
    intro σ kv
    show kv ∈ ((filesFold _ rest).2).files ↔ _
    rw [ih]
    show kv ∈ eraseKey σ.files (pathToKey fp) ∧ _ ↔ _
    rw [mem_eraseKey]
    simp only [List.map_cons, List.mem_cons, not_or]
    tauto

theorem mem_filesFold_cache : ∀ fps σ (kv : String × FileMetadata),
    kv ∈ ((filesFold σ fps).2).metadata_cache ↔
      kv ∈ σ.metadata_cache ∧ kv.1 ∉ fps.map pathToKey := by
  intro fps
  induction fps with
  | nil => intro σ kv; simp [filesFold]
  | cons fp rest ih =>
    intro σ kv
    show kv ∈ ((filesFold _ rest).2).metadata_cache ↔ _
    rw [ih]
    show kv ∈ eraseKey σ.metadata_cache (pathToKey fp) ∧ _ ↔ _
    rw [mem_eraseKey]
    simp only [List.map_cons, List.mem_cons, not_or]
    tauto

theorem dirsFold_files : ∀ ds σ, (dirsFold σ ds).files = σ.files := by
  intro ds
  induction ds with
  | nil => intro σ; rfl
  | cons d rest ih => intro σ; exact ih _

theorem dirsFold_cache : ∀ ds σ, (dirsFold σ ds).metadata_cache = σ.metadata_cache := by
  intro ds
  induction ds with
  | nil => intro σ; rfl
  | cons d rest ih => intro σ; exact ih _

theorem mem_dirsFold_directories : ∀ ds σ (kv : String × DirEntry),
    kv ∈ (dirsFold σ ds).directories ↔ kv ∈ σ.directories ∧ kv.1 ∉ ds := by
  intro ds
  induction ds with
  | nil => intro σ kv; simp [dirsFold]
  | cons d rest ih =>
    intro σ kv
    show kv ∈ (dirsFold _ rest).directories ↔ _
    rw [ih]
    show kv ∈ eraseKey σ.directories d ∧ _ ↔ _
    rw [mem_eraseKey]
    simp only [List.mem_cons, not_or]
    tauto

theorem lookupKey_dirsFold : ∀ ds σ K, lookupKey (dirsFold σ ds).directories K =
    if K ∈ ds then none else lookupKey σ.directories K := by
  intro ds
  induction ds with
  | nil => intro σ K; simp [dirsFold]
  | cons d rest ih =>
    intro σ K
    show lookupKey (dirsFold _ rest).directories K = _
    rw [ih]
    by_cases hkr : K ∈ rest
    · simp [hkr]
    · rw [if_neg hkr]
      by_cases hkd : K = d
      · subst hkd
        show lookupKey (eraseKey σ.directories K) K = _
        rw [lookupKey_eraseKey_self]
        simp
      · show lookupKey (eraseKey σ.directories d) K = _
        rw [lookupKey_eraseKey_of_ne _ hkd]
        simp [hkd, hkr]

theorem planSpec_congr : ∀ fps (σ₁ σ₂ : NameNode),
    (∀ fp ∈ fps, lookupKey σ₁.files (pathToKey fp) = lookupKey σ₂.files (pathToKey fp)) →
    planSpec σ₁ fps = planSpec σ₂ fps := by
  intro fps
  induction fps with
  | nil => intro σ₁ σ₂ _; rfl
  | cons fp rest ih =>
    intro σ₁ σ₂ h
    simp only [planSpec]
    rw [h fp (List.mem_cons_self _ _), ih σ₁ σ₂ (fun x hx => h x (List.mem_cons_of_mem _ hx))]

theorem filesFold_plan : ∀ fps σ, (fps.map pathToKey).Nodup →
    (filesFold σ fps).1 = planSpec σ fps := by
  intro fps
  induction fps with
  | nil => intro σ _; rfl
  | cons fp rest ih =>
    intro σ hnd
    rw [List.map_cons, List.nodup_cons] at hnd
    show (match lookupKey σ.files (pathToKey fp) with
      | some md => md.blocks.map (fun b => (b.block_id, b.locations, md.storage_name))
      | none => []) ++ (filesFold _ rest).1 = planSpec σ (fp :: rest)
    rw [ih _ hnd.2]
    simp only [planSpec]
    congr 1
    apply planSpec_congr
    intro fp' hfp'
    show lookupKey (eraseKey σ.files (pathToKey fp)) (pathToKey fp') = _
    apply lookupKey_eraseKey_of_ne
    intro hcontra
    exact hnd.1 (hcontra ▸ List.mem_map_of_mem pathToKey hfp')

/-- Claim C5 (amended): `delete_directory` of the root fails and changes no
state; for any other existing directory `D` whose recursive gather
succeeds and actually discovers every directory key under `D` and every
stored (or cached) file key whose decoded path lies under `D` — which holds
for link-consistent trees, but `store_file_metadata` can create unlinked
subtrees that the gather misses (see the counterexample) — a successful
`delete_directory D` removes every directory key equal to `D` or having
prefix `D/`, removes every file key (and cache entry) under `D`, rewrites
the parent entry with `basename D` dropped from its children, deletes the
directory keys children-before-parents, and returns the aggregated block
plan together with the file and directory counts. -/
theorem claim5_delete_directory_amended (σ : NameNode) (D : String)
    (fps dps : List String) (q0 : String)
    (hD : normalizePath D = D)
    (hroot : D ≠ "/")
    (hex : (lookupKey σ.directories D).isSome = true)
    (hcol : collectItems σ (σ.directories.length + 1) D = some (fps, dps))
    (hdirsC : ∀ kv ∈ σ.directories, underDir D kv.1 = true → kv.1 ∈ dps)
    (hfilesC : ∀ kv ∈ σ.files, underDir D (keyToPath kv.1) = true →
      kv.1 ∈ fps.map pathToKey)
    (hcacheC : ∀ kv ∈ σ.metadata_cache, underDir D (keyToPath kv.1) = true →
      kv.1 ∈ fps.map pathToKey)
    (hdps : ∀ d ∈ dps, underDir D d = true)
    (hparent : ∀ q, getParentPath D = some q → underDir D q = false ∧ q ≠ D)
    (hnd : (fps.map pathToKey).Nodup) :
    (normalizePath q0 = "/" → deleteDirectory σ q0 = (none, σ)) ∧
    (deleteDirectory σ D).1 = some ⟨planSpec σ fps, fps.length, dps.length + 1⟩ ∧
    (∀ kv ∈ ((deleteDirectory σ D).2).directories,
      kv.1 ≠ D ∧ underDir D kv.1 = false) ∧
    (∀ kv ∈ ((deleteDirectory σ D).2).files, underDir D (keyToPath kv.1) = false) ∧
    (∀ kv ∈ ((deleteDirectory σ D).2).metadata_cache,
      underDir D (keyToPath kv.1) = false) ∧
    (∀ q, getParentPath D = some q →
      lookupKey ((deleteDirectory σ D).2).directories q =
        (lookupKey σ.directories q).map (fun pe =>
          { pe with children := pe.children.filter (fun c => c != basenameStr D) })) ∧
    (deletionOrder dps D).Pairwise (fun a b => underDir a b = false) := by
  have hpeD : pathExists σ D = true := by
    simp only [pathExists, hD, hex, Bool.true_or]
  obtain ⟨q, hq⟩ : ∃ q, getParentPath D = some q := by
    unfold getParentPath
    rw [if_neg hroot]
    exact ⟨_, rfl⟩
  have hmain : deleteDirectory σ D =
      (some ⟨(filesFold σ fps).1, fps.length, dps.length + 1⟩,
       match lookupKey (dirsFold (filesFold σ fps).2 (deletionOrder dps D)).directories q with
       | some pe =>
         { dirsFold (filesFold σ fps).2 (deletionOrder dps D) with
             directories := setKey
               (dirsFold (filesFold σ fps).2 (deletionOrder dps D)).directories q
               { pe with children := pe.children.filter (fun c => c != basenameStr D) } }
       | none => dirsFold (filesFold σ fps).2 (deletionOrder dps D)) := by
    unfold deleteDirectory
    rw [hD, if_neg hroot, hpeD]
    simp only [Bool.not_true, Bool.false_eq_true, if_false]
    rw [hcol, hq]
  have hsub : ∀ kv ∈ (dirsFold (filesFold σ fps).2 (deletionOrder dps D)).directories,
      kv.1 ≠ D ∧ underDir D kv.1 = false := by
    intro kv hkv
    rw [mem_dirsFold_directories] at hkv
    obtain ⟨hkv1, hkv2⟩ := hkv
    rw [filesFold_directories] at hkv1
    constructor
    · intro hcontra
      exact hkv2 (mem_deletionOrder.mpr (Or.inr hcontra))
    · cases hu : underDir D kv.1 with
      | false => rfl
      | true =>
        exact absurd (mem_deletionOrder.mpr (Or.inl (hdirsC kv hkv1 hu))) hkv2
  have hlookσ₂ : lookupKey
      (dirsFold (filesFold σ fps).2 (deletionOrder dps D)).directories q
      = lookupKey σ.directories q := by
    rw [lookupKey_dirsFold, if_neg, filesFold_directories]
    intro hcontra
    rcases mem_deletionOrder.mp hcontra with hqd | hqD
    · have := hdps q hqd
      rw [(hparent q hq).1] at this
      exact absurd this (by simp)
    · exact (hparent q hq).2 hqD
  refine ⟨?_, ?_, ?_, ?_, ?_, ?_, deletionOrder_pairwise dps D⟩
  · intro hq0
    unfold deleteDirectory
    rw [hq0]
    simp
  · rw [hmain]
    show some _ = some _
    rw [filesFold_plan fps σ hnd]
  · intro kv hkv
    rw [hmain] at hkv
    cases hlq : lookupKey
        (dirsFold (filesFold σ fps).2 (deletionOrder dps D)).directories q with
    | none =>
      rw [hlq] at hkv
      exact hsub kv hkv
    | some pe =>
      rw [hlq] at hkv
      rcases mem_setKey hkv with hkv' | hkv'
      · obtain ⟨hu, hne⟩ := hparent q hq
        rw [hkv']
        exact ⟨hne, hu⟩
      · exact hsub kv hkv'
  · intro kv hkv
    rw [hmain] at hkv
    have hkv2 : kv ∈ ((filesFold σ fps).2).files := by
      cases hlq : lookupKey
          (dirsFold (filesFold σ fps).2 (deletionOrder dps D)).directories q with
      | none =>
        rw [hlq] at hkv
        have hkv3 : kv ∈ (dirsFold (filesFold σ fps).2 (deletionOrder dps D)).files := hkv
        rw [dirsFold_files] at hkv3
        exact hkv3
      | some pe =>
        rw [hlq] at hkv
        have hkv3 : kv ∈ (dirsFold (filesFold σ fps).2 (deletionOrder dps D)).files := hkv
        rw [dirsFold_files] at hkv3
        exact hkv3
    rw [mem_filesFold_files] at hkv2
    cases hu : underDir D (keyToPath kv.1) with
    | false => rfl
    | true => exact absurd (hfilesC kv hkv2.1 hu) hkv2.2
  · intro kv hkv
    rw [hmain] at hkv
    have hkv2 : kv ∈ ((filesFold σ fps).2).metadata_cache := by
      cases hlq : lookupKey
          (dirsFold (filesFold σ fps).2 (deletionOrder dps D)).directories q with
      | none =>
        rw [hlq] at hkv
        have hkv3 : kv ∈ (dirsFold (filesFold σ fps).2
            (deletionOrder dps D)).metadata_cache := hkv
        rw [dirsFold_cache] at hkv3
        exact hkv3
      | some pe =>
        rw [hlq] at hkv
        have hkv3 : kv ∈ (dirsFold (filesFold σ fps).2
            (deletionOrder dps D)).metadata_cache := hkv
        rw [dirsFold_cache] at hkv3
        exact hkv3
    rw [mem_filesFold_cache] at hkv2
    cases hu : underDir D (keyToPath kv.1) with
    | false => rfl
    | true => exact absurd (hcacheC kv hkv2.1 hu) hkv2.2
  · intro q' hq'
    rw [hq] at hq'
    have hqq : q = q' := Option.some.inj hq'
    subst hqq
    rw [hmain]
    cases hlq : lookupKey
        (dirsFold (filesFold σ fps).2 (deletionOrder dps D)).directories q with
    | none =>
      have h1 : lookupKey σ.directories q = none := by rw [← hlookσ₂, hlq]
      show lookupKey (dirsFold (filesFold σ fps).2 (deletionOrder dps D)).directories q
          = (lookupKey σ.directories q).map (fun pe =>
            { pe with children := pe.children.filter (fun c => c != basenameStr D) })
      rw [hlq, h1]
      rfl
    | some pe =>
      have h1 : lookupKey σ.directories q = some pe := by rw [← hlookσ₂, hlq]
      show lookupKey (setKey
          (dirsFold (filesFold σ fps).2 (deletionOrder dps D)).directories q
          { pe with children := pe.children.filter (fun c => c != basenameStr D) }) q
          = (lookupKey σ.directories q).map (fun pe =>
            { pe with children := pe.children.filter (fun c => c != basenameStr D) })
      rw [lookupKey_setKey_self, h1]
      rfl

/-- Claim C5 counterexample: in `scnOrphan` (built by `mkdir /x` followed
by a store of `x/y/f.txt`, which creates the orphan directory key `/x/y`),
`delete_directory /x` reports success, yet the key `/x/y` — which has
prefix `/x/` — and the file key `__x__y__f.txt` — whose path `/x/y/f.txt`
lies under `/x` — both survive, refuting the claim. -/
theorem claim5_counterexample :
    (deleteDirectory scnOrphan "/x").1.isSome = true ∧
    (lookupKey ((deleteDirectory scnOrphan "/x").2).directories "/x/y").isSome = true ∧
    underDir "/x" "/x/y" = true ∧
    (lookupKey ((deleteDirectory scnOrphan "/x").2).files "__x__y__f.txt").isSome = true ∧
    keyToPath "__x__y__f.txt" = "/x/y/f.txt" ∧
    underDir "/x" "/x/y/f.txt" = true := by
  decide

/-- Claim C5 witness: on the link-consistent tree `scnTree`, deleting `/x`
returns the aggregated plan with one file and two directories deleted. -/
theorem claim5_witness :
    (deleteDirectory scnTree "/x").1
      = some ⟨planSpec scnTree ["/x/a.txt"], 1, 2⟩ :=
  (claim5_delete_directory_amended scnTree "/x" ["/x/a.txt"] ["/x/y"] "/"
    (by decide) (by decide) (by decide) (by decide) (by decide) (by decide)
    (by decide) (by decide) (by decide) (by decide)).2.1
